import Mathlib

/-!
Verification of the `vttLib` core (`src/vttLib/__init__.py`): the
VTT-assembly-to-TrueType-assembly transformation (`transform_assembly`),
composite-component validation (`check_composite_info`), composite-info
regeneration (`write_composite_info`), and the TSI program text
normalization (`set_vtt_program` / `get_vtt_program`).

The tokenizer (`vttLib.parser.AssemblyParser`) is an external module that is
not part of the sources under verification; `transform_assembly` is therefore
modelled as a function over the token sequence the tokenizer produces.  Each
token carries a mnemonic, a (numeric) flags string, the integer stack
operands, and the delta triples, exactly as the Python code consumes them
(`t.mnemonic`, `t.flags`, `t.stack_items`, `t.deltas`).
-/

namespace VttLib

/-- A parsed assembly statement, as produced by the tokenizer and consumed by
`transform_assembly`.  `deltas` is the ordered list of
`(point_index, rel_ppem, step_no)` triples of a delta instruction body. -/
structure Token where
  mnemonic : String
  flags : String
  stack_items : List Int
  deltas : List (Int × Int × Int)
deriving DecidableEq

/-- The tagged component descriptors `OffsetComponent` / `AnchorComponent`
(namedtuples in the source). -/
inductive Component where
  | offset (index x y : Int) (round_to_grid use_my_metrics : Bool)
      (scaled_offset : Option Bool)
  | anchor (index first second : Int) (use_my_metrics : Bool)
      (scaled_offset : Option Bool)
deriving DecidableEq

/-- One slot of the `stream` list in `transform_assembly`: either a still
pending deque of stack operands (a scope), or a finalized instruction line. -/
inductive Entry where
  | scope (ops : List Int)
  | line (s : String)
deriving DecidableEq

/-- The errors `transform_assembly` can raise.  `indexError` models a Python
`IndexError` from `push_indexes.pop()` / `push_indexes[-1]` on an empty list;
the `assert...` constructors model the corresponding `assert` statements;
`scopeImbalance` is the final `assert len(push_indexes) == 1 and
push_indexes[0] == 0`; `nameError` models the unbound `delta_base` when a
DELTAP/DELTAC mnemonic carries no 1/2/3 suffix; `typeError` covers the
(unreachable) situation of a stream slot not holding what the code expects. -/
inductive TError where
  | indexError
  | valueError
  | assertPushOn
  | assertNoDeltas
  | assertStackItems
  | scopeImbalance
  | nameError
  | typeError
deriving DecidableEq

/-- The loop state of `transform_assembly`.  `push_indexes` is the Python
list reversed: its head is the Python `push_indexes[-1]` (top of the scope
stack).  The Python `pos` variable always equals `len(stream)` and is not
represented separately. -/
structure TState where
  push_on : Bool
  push_indexes : List Nat
  stream : List Entry
  components : List Component
  round_to_grid : Bool
  use_my_metrics : Bool
  scaled_offset : Option Bool
deriving DecidableEq

/-- Initial state: `push_on = True`, `push_indexes = [0]`,
`stream = [deque()]`, pending component flags cleared. -/
def initState (components : List Component) : TState :=
  { push_on := true
    push_indexes := [0]
    stream := [.scope []]
    components := components
    round_to_grid := false
    use_my_metrics := false
    scaled_offset := none }

/-- Python `s.startswith(p)` (kernel-reducible, via the character list). -/
def pyStartsWith (s p : String) : Bool :=
  p.data.isPrefixOf s.data

/-- Python `s.endswith(p)` (kernel-reducible, via the character list). -/
def pyEndsWith (s p : String) : Bool :=
  p.data.isSuffixOf s.data

/-- `mnemonic.startswith(("DLTC", "DLTP", "DELTAP", "DELTAC"))`. -/
def startsWithDelta (m : String) : Bool :=
  pyStartsWith m "DLTC" || pyStartsWith m "DLTP" ||
    pyStartsWith m "DELTAP" || pyStartsWith m "DELTAC"

/-- Strip a pattern prefix, returning the remainder after it. -/
def stripPat : List Char → List Char → Option (List Char)
  | [], l => some l
  | _ :: _, [] => none
  | p :: ps, c :: cs => if c = p then stripPat ps cs else none

/-- Python `str.replace(pat, rep)` on character lists: replace every
non-overlapping occurrence, scanning left to right.  `fuel` makes the
recursion structural; for a non-empty pattern every step consumes at least
one input character, so `fuel = l.length` (as passed by `pyReplace`) never
runs out before the input does. -/
def replaceFuel (pat rep : List Char) : Nat → List Char → List Char
  | _, [] => []
  | 0, l => l
  | fuel + 1, c :: rest =>
    match stripPat pat (c :: rest) with
    | some r => rep ++ replaceFuel pat rep fuel r
    | none => c :: replaceFuel pat rep fuel rest

/-- Python `s.replace(pat, rep)` (for a non-empty pattern, the only use in
the source). -/
def pyReplace (s pat rep : String) : String :=
  match pat.data with
  | [] => s
  | _ :: _ => String.mk (replaceFuel pat.data rep.data s.data.length s.data)

/-- `"PUSH[] %s" % " ".join(str(i) for i in stack)`. -/
def pushLine (ops : List Int) : String :=
  "PUSH[] " ++ String.intercalate " " (ops.map toString)

/-- `"%s[%s]" % (mnemonic, t.flags)` appended to the stream. -/
def emitLine (st : TState) (m flags : String) : TState :=
  { st with stream := st.stream ++ [.line (m ++ "[" ++ flags ++ "]")] }

/-- The delta selector: `-8: 0, ... -1: 7, 1: 8, ... 8: 15`
(`(step_no + 7) if step_no > 0 else (step_no + 8)`). -/
def packSelector (step_no : Int) : Int :=
  if step_no > 0 then step_no + 7 else step_no + 8

/-- `(rel_ppem << 4) | selector`.  In Python both operands are unbounded
integers; since the selector lies in `[0, 16)` (the parser guarantees
`step_no` in `[-8, 8]` excluding 0) and `rel_ppem << 4` has zero low nibble,
the bitwise or equals `rel_ppem * 16 + selector`, which is how it is written
here. -/
def packDelta (rel_ppem step_no : Int) : Int :=
  rel_ppem * 16 + packSelector step_no

/-- The generation base subtracted from `rel_ppem`: 9 for a `...1` mnemonic,
25 for `...2`, 41 for `...3` (the `delta_base` if/elif chain). -/
def deltaBase (m : String) : Option Int :=
  if pyEndsWith m "1" then some 9
  else if pyEndsWith m "2" then some 25
  else if pyEndsWith m "3" then some 41
  else none

/-- The base effectively subtracted for a delta mnemonic: the generation base
for the `DELTAP...`/`DELTAC...` spellings (`none` when the suffix resolves no
base, in which case Python hits an unbound `delta_base`), and 0 for the
`DLT...` spellings, whose `rel_ppem` is used as is. -/
def deltaBaseFor (m : String) : Option Int :=
  if pyStartsWith m "DELTAP" || pyStartsWith m "DELTAC" then deltaBase m
  else some 0

/-- `deltas.setdefault(point_index, []).append((rel_ppem, step_no))`:
append `v` to the group keyed `k`, creating the group at the end on first
insertion (ordered-dict insertion order). -/
def insertGroup (k : Int) (v : Int × Int) :
    List (Int × List (Int × Int)) → List (Int × List (Int × Int))
  | [] => [(k, [v])]
  | (k', vs) :: rest =>
    if k' = k then (k', vs ++ [v]) :: rest else (k', vs) :: insertGroup k v rest

/-- The `OrderedDict` built by iterating `reversed(t.deltas)`: triples grouped
by point index, groups ordered by first occurrence in the reversed list,
each group's `(rel_ppem, step_no)` pairs in reversed insertion order. -/
def groupDeltas (ds : List (Int × Int × Int)) : List (Int × List (Int × Int)) :=
  ds.reverse.foldl (fun acc t => insertGroup t.1 (t.2.1, t.2.2) acc) []

/-- Descending lexicographic comparison on `(rel_ppem, step_no)` pairs:
`a` may come before `b`. -/
def lexGe (a b : Int × Int) : Bool :=
  b.1 < a.1 || (a.1 = b.1 && b.2 ≤ a.2)

/-- Insert into a descending-sorted list. -/
def insertDesc (x : Int × Int) : List (Int × Int) → List (Int × Int)
  | [] => [x]
  | y :: ys => if lexGe x y then x :: y :: ys else y :: insertDesc x ys

/-- Python `sorted(delta_specs, reverse=True)`: sort `(rel_ppem, step_no)`
pairs in descending lexicographic order.  (Pairs compare by a total order in
which equal elements are identical, so any correct sort agrees with
Python's.) -/
def sortDesc (l : List (Int × Int)) : List (Int × Int) :=
  l.foldr insertDesc []

/-- The `(point_index, packed value)` pairs in the order the delta loop
emits them: groups in ordered-dict order, each group sorted descending,
the generation base `b` subtracted from `rel_ppem` before packing. -/
def mkPairs (b : Int) (ds : List (Int × Int × Int)) : List (Int × Int) :=
  (groupDeltas ds).flatMap
    (fun g => (sortDesc g.2).map (fun rs => (g.1, packDelta (rs.1 - b) rs.2)))

/-- The emission pairs of a delta instruction, `none` when the generation
base cannot be resolved. -/
def deltaPairs (m : String) (ds : List (Int × Int × Int)) :
    Option (List (Int × Int)) :=
  (deltaBaseFor m).map (fun b => mkPairs b ds)

/-- The chronological `appendleft` sequence of the delta loop applied to the
pending operand deque `ops`: first `appendleft(n)`, then for each emitted
pair `appendleft(point_index); appendleft(packed)`. -/
def pushDeltaOps (n : Int) (pairs : List (Int × Int)) (ops : List Int) :
    List Int :=
  pairs.foldl (fun acc pv => pv.2 :: pv.1 :: acc) (n :: ops)

/-- The per-token dispatch of the `for t in tokens` loop in
`transform_assembly`, one token at a time. -/
def stepToken (st : TState) (t : Token) : Except TError TState :=
  let m := t.mnemonic
  if m = "OVERLAP" then .ok st
  else if m = "USEMYMETRICS" then .ok { st with use_my_metrics := true }
  else if m = "SCALEDCOMPONENTOFFSET" then .ok { st with scaled_offset := some true }
  else if m = "UNSCALEDCOMPONENTOFFSET" then .ok { st with scaled_offset := some false }
  else if m = "OFFSET" then
    match t.stack_items with
    | [index, x, y] =>
      let rtg := t.flags = "1"
      .ok { st with
        components := st.components ++
          [.offset index x y rtg st.use_my_metrics st.scaled_offset]
        use_my_metrics := false
        round_to_grid := false
        scaled_offset := none }
    | _ => .error .valueError
  else if m = "ANCHOR" then
    match t.stack_items with
    | [index, first, second] =>
      let st' := { st with
        components := st.components ++
          [.anchor index first second st.use_my_metrics st.scaled_offset]
        use_my_metrics := false
        scaled_offset := none }
      .ok (emitLine st' m t.flags)
    | _ => .error .valueError
  else if m = "#PUSHON" then .ok { st with push_on := true }
  else if m = "#PUSHOFF" then .ok { st with push_on := false }
  else if m = "#BEGIN" then
    .ok { st with
      push_indexes := st.stream.length :: st.push_indexes
      stream := st.stream ++ [.scope []] }
  else if m = "#END" then
    match st.push_indexes with
    | [] => .error .indexError
    | pi :: rest =>
      match st.stream[pi]? with
      | some (.scope ops) =>
        .ok { st with
          push_indexes := rest
          stream := if ops.isEmpty then st.stream
                    else st.stream.set pi (.line (pushLine ops)) }
      | _ => .error .typeError
  else if m = "#PUSH" then
    .ok { st with stream := st.stream ++ [.line (pushLine t.stack_items)] }
  else if startsWithDelta m then
    if !st.push_on then .error .assertPushOn
    else if t.deltas.isEmpty then .error .assertNoDeltas
    else
      match st.push_indexes with
      | [] => .error .indexError
      | pi :: _ =>
        match st.stream[pi]? with
        | some (.scope ops) =>
          match deltaPairs m t.deltas with
          | none => .error .nameError
          | some pairs =>
            let st' := { st with
              stream := st.stream.set pi
                (.scope (pushDeltaOps (t.deltas.length : Int) pairs ops)) }
            let m' := if pyStartsWith m "DLT" then pyReplace m "DLT" "DELTA" else m
            .ok (emitLine st' m' t.flags)
        | _ => .error .typeError
  else
    if st.push_on then
      match t.stack_items with
      | [] => .ok (emitLine st m t.flags)
      | _ :: _ =>
        match st.push_indexes with
        | [] => .error .indexError
        | pi :: _ =>
          match st.stream[pi]? with
          | some (.scope ops) =>
            .ok (emitLine
              { st with stream := st.stream.set pi (.scope (t.stack_items ++ ops)) }
              m t.flags)
          | _ => .error .typeError
    else
      match t.stack_items with
      | [] => .ok (emitLine st m t.flags)
      | _ :: _ => .error .assertStackItems

/-- Run the token loop. -/
def processTokens (st : TState) : List Token → Except TError TState
  | [] => .ok st
  | t :: rest =>
    match stepToken st t with
    | .ok st' => processTokens st' rest
    | .error e => .error e

/-- `"\n".join([i for i in stream if i])`, entry by entry: empty deques and
empty strings are falsy and skipped; a non-empty deque surviving to this
point cannot be joined (unreachable after the final scope assert). -/
def renderEntries : List Entry → Except TError (List String)
  | [] => .ok []
  | .scope [] :: rest => renderEntries rest
  | .scope (_ :: _) :: _ => .error .typeError
  | .line s :: rest =>
    match renderEntries rest with
    | .ok ls => .ok (if s = "" then ls else s :: ls)
    | .error e => .error e

/-- The tail of `transform_assembly` after the token loop: the final scope
assert, the finalization of the root `PUSH[]`, and the output lines (the
joined text is built by `transform_assembly` below). -/
def finalizeState (st : TState) : Except TError (List String × List Component) :=
  if st.push_indexes = [0] then
    match st.stream[0]? with
    | some (Entry.scope ops) =>
      match renderEntries
          (if ops.isEmpty then st.stream
           else st.stream.set 0 (.line (pushLine ops))) with
      | .ok ls => .ok (ls, st.components)
      | .error e => .error e
    | _ => .error .typeError
  else .error .scopeImbalance

/-- `transform_assembly` at the level of output lines: process the token
sequence and return the final instruction lines plus the accumulated
component list. -/
def transformLines (tokens : List Token) (components : List Component) :
    Except TError (List String × List Component) :=
  match processTokens (initState components) tokens with
  | .ok st => finalizeState st
  | .error e => .error e

/-- `transform_assembly(data, components)` over the token sequence the
tokenizer yields for `data`: the newline-joined output text and the
component list. -/
def transform_assembly (tokens : List Token) (components : List Component) :
    Except TError (String × List Component) :=
  match transformLines tokens components with
  | .ok (ls, comps) => .ok (String.intercalate "\n" ls, comps)
  | .error e => .error e

/-! ## Composite info validation (`check_composite_info`) -/

/-- Component flag bits from `fontTools.ttLib.tables._g_l_y_f` (standard
TrueType `glyf` composite flags; the library imports these constants). -/
def ROUND_XY_TO_GRID : Nat := 0x0004
def USE_MY_METRICS : Nat := 0x0200
def SCALED_COMPONENT_OFFSET : Nat := 0x0800
def UNSCALED_COMPONENT_OFFSET : Nat := 0x1000

/-- How a `glyf` outline component is placed: by an anchor point pair
(`comp.firstPt`/`comp.secondPt` present) or by an (x, y) offset
(`comp.x`/`comp.y` present). -/
inductive GlyfPlacement where
  | anchor (firstPt secondPt : Int)
  | offset (x y : Int)
deriving DecidableEq

/-- An outline component record of a composite glyph as
`check_composite_info` reads it. -/
structure GlyphComponent where
  glyphName : String
  placement : GlyfPlacement
  flags : Nat
deriving DecidableEq

/-- The distinct `VTTLibInvalidComposite` errors, by raise site, each naming
the component index and glyph as the message does. -/
inductive CompositeError where
  | countMismatch (name : String) (expected found : Nat)
  | glyphNotFound (glyphName : String)
  | indexMismatch (i : Nat) (name : String) (expected : Nat) (found : Int)
  | typeMismatch (i : Nat) (name : String) (expectedAnchor : Bool)
  | wrongAnchorPoint (i : Nat) (name : String) (expected found : Int)
  | wrongXOffset (i : Nat) (name : String) (expected found : Int)
  | wrongYOffset (i : Nat) (name : String) (expected found : Int)
  | wrongRoundToGrid (i : Nat) (name : String)
  | wrongUseMyMetrics (i : Nat) (name : String)
  | wrongScaledOffset (i : Nat) (name : String)
  | wrongUnscaledOffset (i : Nat) (name : String)
  | internalIndexError
deriving DecidableEq

/-- `comp.flags & BIT` as a truth value. -/
def bitSet (flags bit : Nat) : Bool := flags &&& bit ≠ 0

/-- Python truthiness of the `Optional[bool]` field `scaled_offset`
(`None` and `False` are falsy). -/
def truthyOpt : Option Bool → Bool
  | some true => true
  | _ => false

/-- `index` field of either component variant. -/
def Component.index : Component → Int
  | .offset i _ _ _ _ _ => i
  | .anchor i _ _ _ _ => i

/-- `use_my_metrics` field of either component variant. -/
def Component.use_my_metrics : Component → Bool
  | .offset _ _ _ _ u _ => u
  | .anchor _ _ _ u _ => u

/-- `scaled_offset` field of either component variant. -/
def Component.scaled_offset : Component → Option Bool
  | .offset _ _ _ _ _ s => s
  | .anchor _ _ _ _ s => s

/-- `glyph_order.index(base_name)` (raises when the name is absent). -/
def idxOf (order : List String) (n : String) : Option Nat :=
  order.indexOf? n

/-- The body of the `for i, comp in enumerate(glyph.components)` loop for a
single component pair. -/
def checkComponent (name : String) (glyph_order : List String)
    (check_flags : Bool) (i : Nat) (comp : GlyphComponent)
    (vttcomp : Component) : Except CompositeError Unit := do
  let index ← match idxOf glyph_order comp.glyphName with
    | none => throw (.glyphNotFound comp.glyphName)
    | some index => pure index
  if vttcomp.index ≠ (index : Int) then
    throw (.indexMismatch i name index vttcomp.index)
  match comp.placement with
  | .anchor firstPt secondPt =>
    match vttcomp with
    | .offset .. => throw (.typeMismatch i name true)
    | .anchor _ first second _ _ =>
      if firstPt ≠ first then
        throw (.wrongAnchorPoint i name firstPt first)
      if secondPt ≠ second then
        throw (.wrongAnchorPoint i name secondPt second)
  | .offset x y =>
    match vttcomp with
    | .anchor .. => throw (.typeMismatch i name false)
    | .offset _ vx vy rtg _ _ =>
      if x ≠ vx then throw (.wrongXOffset i name x vx)
      if y ≠ vy then throw (.wrongYOffset i name y vy)
      if check_flags &&
          ((bitSet comp.flags ROUND_XY_TO_GRID && !rtg) ||
           (!bitSet comp.flags ROUND_XY_TO_GRID && rtg)) then
        throw (.wrongRoundToGrid i name)
  if !check_flags then
    return ()
  let umm := vttcomp.use_my_metrics
  if (bitSet comp.flags USE_MY_METRICS && !umm) ||
      (!bitSet comp.flags USE_MY_METRICS && umm) then
    throw (.wrongUseMyMetrics i name)
  let so := truthyOpt vttcomp.scaled_offset
  if (bitSet comp.flags SCALED_COMPONENT_OFFSET && !so) ||
      (!bitSet comp.flags SCALED_COMPONENT_OFFSET && so) then
    throw (.wrongScaledOffset i name)
  if (bitSet comp.flags UNSCALED_COMPONENT_OFFSET && !so) ||
      (!bitSet comp.flags UNSCALED_COMPONENT_OFFSET && so) then
    throw (.wrongUnscaledOffset i name)

/-- The component loop (`vtt_components[i]` cannot be out of range once the
count check passed). -/
def checkComps (name : String) (glyph_order : List String)
    (check_flags : Bool) :
    Nat → List GlyphComponent → List Component → Except CompositeError Unit
  | _, [], _ => .ok ()
  | _, _ :: _, [] => .error .internalIndexError
  | i, c :: cs, v :: vs => do
    checkComponent name glyph_order check_flags i c v
    checkComps name glyph_order check_flags (i + 1) cs vs

/-- `check_composite_info(name, glyph, vtt_components, glyph_order,
check_flags)`. -/
def check_composite_info (name : String) (glyph : List GlyphComponent)
    (vtt_components : List Component) (glyph_order : List String)
    (check_flags : Bool) : Except CompositeError Unit := do
  if vtt_components.length ≠ glyph.length then
    throw (.countMismatch name glyph.length vtt_components.length)
  checkComps name glyph_order check_flags 0 glyph vtt_components

/-! ## Composite info regeneration (`write_composite_info`)

`composite_info_RE` is an alternation of five patterns, each anchored at a
line start (`re.MULTILINE`, so at position 0 or right after a `\n`), each
beginning with a distinct literal (`USEMYMETRICS[]`, `OVERLAP[]`,
`(UN)?SCALEDCOMPONENTOFFSET[]`, `ANCHOR[]` + three integer arguments,
`OFFSET[r|R]` + three integer arguments) and ending with an optional single
`\r` or `\n`.  No alternative can match other than at a line start, a match
never extends past the next `\n`, and after a match that does not consume a
newline no further match can start before the next `\n`; hence `finditer`
finds at most one match per `\n`-terminated line, always at the line's
start.  The scanner below exploits this: it splits the text after each `\n`
and matches each chunk at its start. -/

/-- Match a literal pattern, returning the remainder. -/
def matchLit : List Char → List Char → Option (List Char)
  | [], l => some l
  | _ :: _, [] => none
  | p :: ps, c :: cs => if c = p then matchLit ps cs else none

/-- Match `-?[0-9]+` (greedy; a lone `-` fails). -/
def matchNum : List Char → Option (List Char)
  | '-' :: rest =>
    match rest.span (·.isDigit) with
    | ([], _) => none
    | (_ :: _, r) => some r
  | l =>
    match l.span (·.isDigit) with
    | ([], _) => none
    | (_ :: _, r) => some r

/-- Match `, *-?[0-9]+`. -/
def matchArg : List Char → Option (List Char)
  | ',' :: rest => matchNum (rest.dropWhile (· = ' '))
  | _ => none

/-- Match `(?:, *-?[0-9]+){3}`. -/
def matchArg3 (l : List Char) : Option (List Char) :=
  (matchArg l).bind (fun r => (matchArg r).bind matchArg)

/-- Match `\[[rR]\]`. -/
def matchOffsetFlag : List Char → Option (List Char)
  | '[' :: 'r' :: ']' :: rest => some rest
  | '[' :: 'R' :: ']' :: rest => some rest
  | _ => none

/-- Try the five alternatives of `composite_info_RE`, in the pattern's
order, without the trailing `[\r\n]?`. -/
def matchAlts (l : List Char) : Option (List Char) :=
  (matchLit "USEMYMETRICS[]".data l).orElse fun _ =>
  (matchLit "OVERLAP[]".data l).orElse fun _ =>
  (matchLit "SCALEDCOMPONENTOFFSET[]".data l).orElse fun _ =>
  (matchLit "UNSCALEDCOMPONENTOFFSET[]".data l).orElse fun _ =>
  ((matchLit "ANCHOR[]".data l).bind matchArg3).orElse fun _ =>
  ((matchLit "OFFSET".data l).bind matchOffsetFlag).bind matchArg3

/-- Match one full alternative including the trailing `[\r\n]?` (greedy),
returning what the match leaves of the chunk. -/
def declLineMatch (l : List Char) : Option (List Char) :=
  (matchAlts l).map fun r =>
    match r with
    | '\r' :: rest => rest
    | '\n' :: rest => rest
    | rest => rest

/-- Split a text after each `\n`, keeping the terminators
(`"a\nb"` becomes `["a\n", "b"]`); the chunk starts are exactly the
positions where `re.MULTILINE`'s `^` can match. -/
def splitAfterLF : List Char → List (List Char)
  | [] => []
  | '\n' :: rest => ['\n'] :: splitAfterLF rest
  | c :: rest =>
    match splitAfterLF rest with
    | [] => [[c]]
    | l :: ls => (c :: l) :: ls

/-- The `finditer` loop of `write_composite_info`: `head` is the
concatenation of all unmatched gaps up to the start of the last match
(`head += data[last:start]` per match), `tail` what follows the last
match's end; with no match at all, `head` is empty and `tail` the whole
text.  The third result records whether any chunk (from this point on)
matched. -/
def scanLines : List (List Char) → List Char × List Char × Bool
  | [] => ([], [], false)
  | chunk :: rest =>
    let (h, t, found) := scanLines rest
    match declLineMatch chunk with
    | some leftover =>
      if found then (leftover ++ h, t, true) else ([], leftover ++ t, true)
    | none =>
      if found then (chunk ++ h, t, true) else ([], chunk ++ t, false)

/-- The head/tail split of `write_composite_info` over the raw text. -/
def wciSplit (data : List Char) : List Char × List Char :=
  let r := scanLines (splitAfterLF data)
  (r.1, r.2.1)

/-- The errors of `write_composite_info` (`glyph_order.index` raises when a
component's base glyph is not in the glyph order). -/
inductive WciError where
  | glyphNotFound (glyphName : String)
deriving DecidableEq

/-- The instruction text regenerated for one outline component: the
pending-flag markers, then the `ANCHOR[]`/`OFFSET[]` declaration. -/
def componentInstr (glyph_order : List String) (vtt_version : Nat)
    (comp : GlyphComponent) : Except WciError String := do
  let index ← match idxOf glyph_order comp.glyphName with
    | none => throw (.glyphNotFound comp.glyphName)
    | some index => pure index
  let s1 := if bitSet comp.flags USE_MY_METRICS then "USEMYMETRICS[]\n" else ""
  let s2 := if vtt_version ≥ 6 then
      (if bitSet comp.flags SCALED_COMPONENT_OFFSET then
        "SCALEDCOMPONENTOFFSET[]\n" else "") ++
      (if bitSet comp.flags UNSCALED_COMPONENT_OFFSET then
        "UNSCALEDCOMPONENTOFFSET[]\n" else "")
    else ""
  let s3 := match comp.placement with
    | .anchor firstPt secondPt =>
      "ANCHOR[], " ++ toString index ++ ", " ++ toString firstPt ++ ", " ++
        toString secondPt ++ "\n"
    | .offset x y =>
      let flag := if bitSet comp.flags ROUND_XY_TO_GRID then "R" else "r"
      "OFFSET[" ++ flag ++ "], " ++ toString index ++ ", " ++ toString x ++
        ", " ++ toString y ++ "\n"
  pure (s1 ++ s2 ++ s3)

/-- `write_composite_info(glyph, glyph_order, data, vtt_version)`: split
`data` around the recognized declarations, regenerate the declaration block
from the outline components, and return `(head, instructions, tail)`. -/
def write_composite_info (glyph : List GlyphComponent)
    (glyph_order : List String) (data : String) (vtt_version : Nat) :
    Except WciError (String × String × String) :=
  let ht := wciSplit data.data
  match glyph.mapM (componentInstr glyph_order vtt_version) with
  | .ok pieces => .ok (String.mk ht.1, String.join pieces, String.mk ht.2)
  | .error e => .error e

/-! ## TSI program normalization (`set_vtt_program` / `get_vtt_program`)

`set_vtt_program` stores `b'\r'.join(data.splitlines()).rstrip() + b'\r'`;
`get_vtt_program` reads the stored bytes back as
`data.replace(b"\r", b"\n")`.  The texts are modelled as character lists
(UTF-8 multi-byte sequences contain no `\r`/`\n`/whitespace bytes, so the
byte-level operations act exactly like these character-level ones). -/

/-- `bytes.splitlines` worker: split on `\n`, `\r` and `\r\n`, terminators
dropped, no trailing empty line for a trailing terminator.  `acc` holds the
current line reversed. -/
def splitlinesGo : List Char → List Char → List (List Char)
  | [], acc => if acc.isEmpty then [] else [acc.reverse]
  | '\r' :: '\n' :: rest, acc => acc.reverse :: splitlinesGo rest []
  | '\r' :: rest, acc => acc.reverse :: splitlinesGo rest []
  | '\n' :: rest, acc => acc.reverse :: splitlinesGo rest []
  | c :: rest, acc => splitlinesGo rest (c :: acc)

/-- `bytes.splitlines()`. -/
def pySplitlines (l : List Char) : List (List Char) :=
  splitlinesGo l []

/-- `sep.join(parts)`. -/
def joinSep (sep : List Char) : List (List Char) → List Char
  | [] => []
  | [x] => x
  | x :: xs => x ++ sep ++ joinSep sep xs

/-- The trailing bytes stripped by `bytes.rstrip()`
(`b' \t\n\r\x0b\x0c'`). -/
def pyIsSpace (c : Char) : Bool :=
  c = ' ' || c = '\t' || c = '\n' || c = '\r' || c = '\x0b' || c = '\x0c'

/-- `bytes.rstrip()`. -/
def rstrip (l : List Char) : List Char :=
  (l.reverse.dropWhile pyIsSpace).reverse

/-- The byte normalization `set_vtt_program` applies before storing:
`b'\r'.join(data.splitlines()).rstrip() + b'\r'`. -/
def set_vtt_program (data : List Char) : List Char :=
  rstrip (joinSep ['\r'] (pySplitlines data)) ++ ['\r']

/-- `data.replace(b"\r", b"\n")`. -/
def crToLf (l : List Char) : List Char :=
  l.map (fun c => if c = '\r' then '\n' else c)

/-- The decoding `get_vtt_program` applies to the stored bytes. -/
def get_vtt_program (stored : List Char) : List Char :=
  crToLf stored

/-! ## Decoding a packed delta (specification side)

The spec describes the packed value as two nibbles: the high part is
`rel_ppem` (recovered by the arithmetic shift `packed >> 4`, i.e. floor
division by 16), the low nibble the selector (recovered by `packed & 15`),
from which the step is `selector - 7` for the positive steps
(selector 8..15) and `selector - 8` for the negative ones (selector 0..7). -/

/-- Low nibble of a packed delta value. -/
def decodeSelector (packed : Int) : Int := packed % 16

/-- High part of a packed delta value (`packed >> 4`; `/` on `Int` is floor
division for a positive divisor). -/
def decodeRelPpem (packed : Int) : Int := packed / 16

/-- The step number encoded in the low nibble. -/
def decodeStep (packed : Int) : Int :=
  if 8 ≤ decodeSelector packed then decodeSelector packed - 7
  else decodeSelector packed - 8

/-- The operands declared by a token sequence, in declaration order. -/
def declaredOperands (tokens : List Token) : List Int :=
  tokens.flatMap Token.stack_items

/-- Modelled from the spec: the tokenizer (`vttLib.parser.AssemblyParser`,
not among the sources under verification) parses the text
`USEMYMETRICS[]\nOFFSET[R], 2, 10, -20` into one `USEMYMETRICS` marker token
and one `OFFSET` declaration token whose operands are `2, 10, -20`; per the
spec the tokenizer yields bracketed numeric flags, the rounding flag `R`
becoming `1` (and `r` becoming `0`, matching the `t.flags == '1'` test and
the `R`/`r` emission of `write_composite_info`). -/
def tokens_C5 : List Token :=
  [⟨"USEMYMETRICS", "", [], []⟩, ⟨"OFFSET", "1", [2, 10, -20], []⟩]

/-! ## Claims -/

/-- C2: delta selector packing is invertible: for `rel_ppem` in
`[-127, 127]` and `step_no` in `[-8, 8]` excluding 0, decoding the packed
nibble pair reproduces the step number (sign and magnitude) and the packed
`rel_ppem`, and, when the generation base (9, 25 or 41) was subtracted
before packing, re-adding it recovers the original `rel_ppem`. -/
theorem delta_packing_invertible (rel_ppem step_no base : Int)
    (hrel : -127 ≤ rel_ppem ∧ rel_ppem ≤ 127)
    (hstep : -8 ≤ step_no ∧ step_no ≤ 8 ∧ step_no ≠ 0)
    (hbase : base = 9 ∨ base = 25 ∨ base = 41) :
    decodeStep (packDelta rel_ppem step_no) = step_no ∧
    decodeRelPpem (packDelta rel_ppem step_no) = rel_ppem ∧
    decodeStep (packDelta (rel_ppem - base) step_no) = step_no ∧
    decodeRelPpem (packDelta (rel_ppem - base) step_no) + base = rel_ppem := by
  obtain ⟨h1, h2⟩ := hrel
  obtain ⟨h3, h4, h5⟩ := hstep
  rcases hbase with rfl | rfl | rfl <;>
    · unfold decodeStep decodeSelector decodeRelPpem packDelta packSelector
      split_ifs <;> omega

/-- Witness for C2 at `rel_ppem = 13`, `step_no = -3`, `base = 9`. -/
theorem delta_packing_invertible_witness :
    decodeStep (packDelta 13 (-3)) = -3 ∧
    decodeRelPpem (packDelta 13 (-3)) = 13 ∧
    decodeStep (packDelta (13 - 9) (-3)) = -3 ∧
    decodeRelPpem (packDelta (13 - 9) (-3)) + 9 = 13 :=
  delta_packing_invertible 13 (-3) 9 (by norm_num) (by norm_num) (by norm_num)

/-- C1, counterexample: for the marker-free input `MDAP[1], 5` then
`MIRP[0], 6, 7` the single `PUSH[]` line reads `PUSH[] 6 7 5`: the second
instruction's operands come first, not the declaration order `5 6 7`
(operands are prepended per instruction, so instruction groups appear in
reverse declaration order). -/
theorem push_order_counterexample :
    transformLines
        [⟨"MDAP", "1", [5], []⟩, ⟨"MIRP", "0", [6, 7], []⟩] [] =
      .ok (["PUSH[] 6 7 5", "MDAP[1]", "MIRP[0]"], []) ∧
    pushLine (declaredOperands
        [⟨"MDAP", "1", [5], []⟩, ⟨"MIRP", "0", [6, 7], []⟩]) = "PUSH[] 5 6 7" ∧
    ("PUSH[] 6 7 5" : String) ≠ "PUSH[] 5 6 7" :=
  ⟨rfl, rfl, by decide⟩

/-- C4, counterexample: unbalanced input is not always detected at
end-of-input.  A first surplus `#END` is accepted (it closes the root
scope), but the next `#END` fails immediately, mid-stream, with an index
error from `push_indexes.pop()` on an empty list — a different failure from
the end-of-input scope-imbalance assert. -/
theorem scope_imbalance_midstream_counterexample :
    (∃ st, stepToken (initState []) ⟨"#END", "", [], []⟩ = .ok st) ∧
    processTokens (initState [])
        [⟨"#END", "", [], []⟩, ⟨"#END", "", [], []⟩] = .error .indexError ∧
    TError.indexError ≠ TError.scopeImbalance :=
  ⟨⟨_, rfl⟩, rfl, by decide⟩

/-- C5, counterexample: `USEMYMETRICS[]\nOFFSET[R], 2, 10, -20` transforms
to empty output with the expected component, but against an outline
component carrying only the claimed flag (round-to-grid) the flag-checking
validation fails: the declaration says use-my-metrics while the outline
component's `USE_MY_METRICS` bit is clear. -/
theorem composite_end_to_end_counterexample :
    transform_assembly tokens_C5 [] =
      .ok ("", [.offset 2 10 (-20) true true none]) ∧
    check_composite_info "glyph"
        [⟨"base", .offset 10 (-20), ROUND_XY_TO_GRID⟩]
        [.offset 2 10 (-20) true true none] ["a", "b", "base"] true =
      .error (.wrongUseMyMetrics 0 "glyph") :=
  ⟨rfl, rfl⟩

/-- C5, amended: the end-to-end example succeeds once the outline component
also carries the `USE_MY_METRICS` bit that the `USEMYMETRICS[]` declaration
asserts. -/
theorem composite_end_to_end :
    transform_assembly tokens_C5 [] =
      .ok ("", [.offset 2 10 (-20) true true none]) ∧
    check_composite_info "glyph"
        [⟨"base", .offset 10 (-20), ROUND_XY_TO_GRID ||| USE_MY_METRICS⟩]
        [.offset 2 10 (-20) true true none] ["a", "b", "base"] true = .ok () :=
  ⟨rfl, rfl⟩

/-- C7: the `UNSCALED_COMPONENT_OFFSET` check uses the same polarity as the
`SCALED_COMPONENT_OFFSET` one, so a component whose outline flag is
`UNSCALED_COMPONENT_OFFSET` and whose declaration (as the library itself
writes and parses it, an `UNSCALEDCOMPONENTOFFSET[]` marker giving
`scaled_offset = False`) agrees with it is nevertheless rejected by the
flag check — the declared flag pair equals the outline bits, yet
`check_composite_info` raises the `UNSCALED_COMPONENT_OFFSET` mismatch. -/
theorem unscaled_flag_check_rejects_matching_component :
    transform_assembly
        [⟨"UNSCALEDCOMPONENTOFFSET", "", [], []⟩,
         ⟨"OFFSET", "0", [0, 10, -20], []⟩] [] =
      .ok ("", [.offset 0 10 (-20) false false (some false)]) ∧
    check_composite_info "glyph"
        [⟨"base", .offset 10 (-20), UNSCALED_COMPONENT_OFFSET⟩]
        [.offset 0 10 (-20) false false (some false)] ["base"] true =
      .error (.wrongUnscaledOffset 0 "glyph") :=
  ⟨rfl, rfl⟩

/-- C8, counterexample: re-running `write_composite_info` on the
concatenation of its own previous output does not reproduce head and tail
byte-identically.  Here the first run leaves an unmatched, mid-line
declaration-shaped remnant in the tail; gluing the regenerated block (which
ends in a newline) in front of it turns it into a recognized declaration, so
the second run gets a different (empty) tail. -/
theorem write_composite_info_not_idempotent :
    write_composite_info [⟨"base", .offset 0 0, ROUND_XY_TO_GRID⟩] ["base"]
        "USEMYMETRICS[]OFFSET[R], 1, 2, 3\n" 6 =
      .ok ("", "OFFSET[R], 0, 0, 0\n", "OFFSET[R], 1, 2, 3\n") ∧
    write_composite_info [⟨"base", .offset 0 0, ROUND_XY_TO_GRID⟩] ["base"]
        ("" ++ "OFFSET[R], 0, 0, 0\n" ++ "OFFSET[R], 1, 2, 3\n") 6 =
      .ok ("", "OFFSET[R], 0, 0, 0\n", "") ∧
    ("OFFSET[R], 1, 2, 3\n" : String) ≠ "" :=
  ⟨rfl, rfl, by decide⟩

/-- C8, amended: what is byte-identical across a re-run on the
concatenated output (outline unchanged) is the regenerated declaration
text, which depends only on the outline components, the glyph order and the
version — head and tail need not be preserved. -/
theorem regen_declarations_stable (glyph : List GlyphComponent)
    (glyph_order : List String) (data : String) (vtt_version : Nat)
    (r : String × String × String)
    (h : write_composite_info glyph glyph_order data vtt_version = .ok r) :
    ∃ r', write_composite_info glyph glyph_order
        (r.1 ++ r.2.1 ++ r.2.2) vtt_version = .ok r' ∧ r'.2.1 = r.2.1 := by
  unfold write_composite_info at h ⊢
  cases hm : glyph.mapM (componentInstr glyph_order vtt_version) with
  | error e => rw [hm] at h; exact absurd h (by simp)
  | ok pieces =>
    rw [hm] at h
    refine ⟨_, rfl, ?_⟩
    have := (Except.ok.injEq _ _).mp h
    rw [← this]

/-- Witness for C8 (amended) on a one-component glyph. -/
theorem regen_declarations_stable_witness :
    ∃ r', write_composite_info [⟨"base", .offset 0 0, ROUND_XY_TO_GRID⟩]
        ["base"]
        (("X\n", "OFFSET[R], 0, 0, 0\n", "Y").1 ++
          ("X\n", "OFFSET[R], 0, 0, 0\n", "Y").2.1 ++
          ("X\n", "OFFSET[R], 0, 0, 0\n", "Y").2.2) 6 = .ok r' ∧
      r'.2.1 = ("X\n", "OFFSET[R], 0, 0, 0\n", "Y").2.1 :=
  regen_declarations_stable [⟨"base", .offset 0 0, ROUND_XY_TO_GRID⟩]
    ["base"] "X\nOFFSET[r], 9, 9, 9\nY" 6
    ("X\n", "OFFSET[R], 0, 0, 0\n", "Y") rfl

/-- The operand sequence the spec describes for one delta instruction with
generation base `b`: the total triple count once, then, grouping the triples
by point index in the collection's reverse-insertion order and sorting each
point group by `(rel_ppem, step_no)` descending, the point index followed by
the packed selector value for every triple. -/
def specDeltaSeq (b : Int) (ds : List (Int × Int × Int)) : List Int :=
  (ds.length : Int) ::
    (groupDeltas ds).flatMap
      (fun g => (sortDesc g.2).flatMap
        (fun rs => [g.1, packDelta (rs.1 - b) rs.2]))

theorem foldl_prepend_pairs (pairs : List (Int × Int)) (init : List Int) :
    pairs.foldl (fun acc pv => pv.2 :: pv.1 :: acc) init =
      (pairs.flatMap (fun pv => [pv.1, pv.2])).reverse ++ init := by
  induction pairs generalizing init with
  | nil => simp
  | cons pv rest ih =>
    simp only [List.foldl_cons, ih, List.flatMap_cons, List.reverse_append,
      List.append_assoc]
    simp

theorem flatMap_flatMap {α β γ : Type} (l : List α) (f : α → List β)
    (g : β → List γ) :
    (l.flatMap f).flatMap g = l.flatMap (fun x => (f x).flatMap g) := by
  induction l with
  | nil => rfl
  | cons a rest ih => simp [List.flatMap_cons, List.flatMap_append, ih]

/-- The chronological `appendleft` sequence of the delta loop prepends
exactly the spec's sequence (so, read left to right in the pending
collection, it is that sequence reversed). -/
theorem pushDeltaOps_eq_specDeltaSeq (b : Int) (ds : List (Int × Int × Int))
    (ops : List Int) :
    pushDeltaOps (ds.length : Int) (mkPairs b ds) ops =
      (specDeltaSeq b ds).reverse ++ ops := by
  unfold pushDeltaOps specDeltaSeq mkPairs
  rw [foldl_prepend_pairs, flatMap_flatMap]
  simp [List.flatMap_map, List.append_assoc]

theorem startsWithDelta_ne (m : String) (h : startsWithDelta m = true) :
    m ≠ "OVERLAP" ∧ m ≠ "USEMYMETRICS" ∧ m ≠ "SCALEDCOMPONENTOFFSET" ∧
    m ≠ "UNSCALEDCOMPONENTOFFSET" ∧ m ≠ "OFFSET" ∧ m ≠ "ANCHOR" ∧
    m ≠ "#PUSHON" ∧ m ≠ "#PUSHOFF" ∧ m ≠ "#BEGIN" ∧ m ≠ "#END" ∧
    m ≠ "#PUSH" := by
  refine ⟨?_, ?_, ?_, ?_, ?_, ?_, ?_, ?_, ?_, ?_, ?_⟩ <;>
    (rintro rfl; revert h; decide)

/-- C3: a delta instruction processed in PUSH_ON mode contributes to the
pending push collection exactly the spec's operand sequence: triples grouped
by point index in reverse-insertion order, each group sorted by
`(rel_ppem, step_no)` descending, each triple emitting point index then
packed value, the total triple count prepended exactly once before all
triples. -/
theorem delta_push_sequence (st : TState) (t : Token) (pi : Nat)
    (rest : List Nat) (ops : List Int) (b : Int)
    (h1 : startsWithDelta t.mnemonic = true)
    (hb : deltaBaseFor t.mnemonic = some b)
    (h2 : st.push_on = true)
    (h3 : t.deltas ≠ [])
    (h4 : st.push_indexes = pi :: rest)
    (h5 : st.stream[pi]? = some (.scope ops)) :
    ∃ st', stepToken st t = .ok st' ∧
      st'.stream[pi]? =
        some (.scope ((specDeltaSeq b t.deltas).reverse ++ ops)) := by
  obtain ⟨n1, n2, n3, n4, n5, n6, n7, n8, n9, n10, n11⟩ := startsWithDelta_ne _ h1
  have hlt : pi < st.stream.length := by
    rcases List.getElem?_eq_some.mp h5 with ⟨hl, _⟩
    exact hl
  have hstep : stepToken st t = .ok (emitLine
      { st with stream := st.stream.set pi (Entry.scope (pushDeltaOps (t.deltas.length : Int) (mkPairs b t.deltas) ops)) }
      (if pyStartsWith t.mnemonic "DLT" then pyReplace t.mnemonic "DLT" "DELTA"
        else t.mnemonic)
      t.flags) := by
    unfold stepToken
    simp only [if_neg n1, if_neg n2, if_neg n3, if_neg n4, if_neg n5,
      if_neg n6, if_neg n7, if_neg n8, if_neg n9, if_neg n10, if_neg n11,
      h1, if_true, h2, Bool.not_true, Bool.false_eq_true, if_false,
      List.isEmpty_eq_false.mpr h3, h4, h5]
    unfold deltaPairs
    rw [hb]
    rfl
  refine ⟨_, hstep, ?_⟩
  unfold emitLine
  simp only [List.getElem?_append, List.length_set, hlt, if_pos]
  rw [List.getElem?_set_eq_of_lt _ hlt]
  rw [pushDeltaOps_eq_specDeltaSeq]

/-- Witness for C3: a `DLTP3` token with one triple, applied at the initial
state. -/
theorem delta_push_sequence_witness :
    ∃ st', stepToken (initState []) ⟨"DLTP3", "", [], [(7, 3, -2)]⟩ = .ok st' ∧
      st'.stream[0]? =
        some (.scope ((specDeltaSeq 0 [(7, 3, -2)]).reverse ++ [])) :=
  delta_push_sequence (initState []) ⟨"DLTP3", "", [], [(7, 3, -2)]⟩ 0 [] [] 0
    (by decide) (by decide) rfl (by decide) rfl rfl

/-! ## The single-`PUSH[]` property for marker-free inputs (C1) -/

/-- The mnemonics handled by a dedicated branch of the dispatch. -/
def isMarker (m : String) : Bool :=
  m = "OVERLAP" || m = "USEMYMETRICS" || m = "SCALEDCOMPONENTOFFSET" ||
  m = "UNSCALEDCOMPONENTOFFSET" || m = "OFFSET" || m = "ANCHOR" ||
  m = "#PUSHON" || m = "#PUSHOFF" || m = "#BEGIN" || m = "#END" || m = "#PUSH"

/-- A plain instruction token, dispatched by the default branch. -/
def plainTok (t : Token) : Bool :=
  !isMarker t.mnemonic && !startsWithDelta t.mnemonic

/-- The operand groups of the tokens processed in PUSH_ON mode, one group
per instruction, in declaration order (`mode` is the PUSH_ON flag when the
first token is reached). -/
def pushOnBlocks (mode : Bool) : List Token → List (List Int)
  | [] => []
  | t :: rest =>
    if t.mnemonic = "#PUSHON" then pushOnBlocks true rest
    else if t.mnemonic = "#PUSHOFF" then pushOnBlocks false rest
    else if mode then t.stack_items :: pushOnBlocks mode rest
    else pushOnBlocks mode rest

/-- The instruction line each non-toggle token appends to the output. -/
def instrLines : List Token → List String
  | [] => []
  | t :: rest =>
    if t.mnemonic = "#PUSHON" || t.mnemonic = "#PUSHOFF" then instrLines rest
    else (t.mnemonic ++ "[" ++ t.flags ++ "]") :: instrLines rest

theorem append_bracket_ne_empty (m f : String) : m ++ "[" ++ f ++ "]" ≠ "" := by
  intro h
  have h2 : (m ++ "[" ++ f ++ "]").data = ("" : String).data :=
    congrArg String.data h
  simp [String.data_append] at h2

theorem pushLine_ne_empty (ops : List Int) : pushLine ops ≠ "" := by
  intro h
  have h2 : (pushLine ops).data = ("" : String).data := congrArg String.data h
  simp [pushLine, String.data_append] at h2

theorem instrLines_ne_empty (ts : List Token) : ∀ s ∈ instrLines ts, s ≠ "" := by
  induction ts with
  | nil => simp [instrLines]
  | cons t rest ih =>
    intro s hs
    unfold instrLines at hs
    by_cases htog : (t.mnemonic = "#PUSHON" || t.mnemonic = "#PUSHOFF") = true
    · rw [if_pos htog] at hs; exact ih s hs
    · rw [if_neg htog] at hs
      rcases List.mem_cons.mp hs with rfl | hs2
      · exact append_bracket_ne_empty _ _
      · exact ih s hs2

theorem renderEntries_lines (ls : List String) (h : ∀ s ∈ ls, s ≠ "") :
    renderEntries (ls.map Entry.line) = .ok ls := by
  induction ls with
  | nil => rfl
  | cons s rest ih =>
    show renderEntries (.line s :: rest.map Entry.line) = .ok (s :: rest)
    unfold renderEntries
    rw [ih (fun x hx => h x (List.mem_cons_of_mem _ hx))]
    simp [h s (List.mem_cons_self _ _)]

/-- The loop invariant for inputs of plain instructions and push-mode
toggles: the scope stack stays `[0]`, the root scope accumulates the
PUSH_ON operand groups in reverse declaration order, and one line per
non-toggle token is appended, in order. -/
theorem processTokens_plain (ts : List Token)
    (h : ∀ t ∈ ts, plainTok t = true ∨ t.mnemonic = "#PUSHON" ∨
      t.mnemonic = "#PUSHOFF")
    (mode : Bool) (ops : List Int) (lines : List String)
    (comps : List Component) (rtg umm : Bool) (so : Option Bool) :
    (∃ e, processTokens
        ⟨mode, [0], .scope ops :: lines.map Entry.line, comps, rtg, umm, so⟩
        ts = .error e) ∨
    ∃ mode', processTokens
        ⟨mode, [0], .scope ops :: lines.map Entry.line, comps, rtg, umm, so⟩
        ts =
      .ok ⟨mode', [0],
        .scope ((pushOnBlocks mode ts).reverse.flatten ++ ops) ::
          (lines ++ instrLines ts).map Entry.line,
        comps, rtg, umm, so⟩ := by
  induction ts generalizing mode ops lines with
  | nil =>
    right
    exact ⟨mode, by simp [processTokens, pushOnBlocks, instrLines]⟩
  | cons t rest ih =>
    have hrest : ∀ t ∈ rest, plainTok t = true ∨ t.mnemonic = "#PUSHON" ∨
        t.mnemonic = "#PUSHOFF" :=
      fun x hx => h x (List.mem_cons_of_mem _ hx)
    rcases h t (List.mem_cons_self _ _) with hp | hm | hm
    · -- plain token
      obtain ⟨hpm, hpd⟩ : isMarker t.mnemonic = false ∧
          startsWithDelta t.mnemonic = false := by
        simpa [plainTok] using hp
      obtain ⟨m1, m2, m3, m4, m5, m6, m7, m8, m9, m10, m11⟩ :
          t.mnemonic ≠ "OVERLAP" ∧ t.mnemonic ≠ "USEMYMETRICS" ∧
          t.mnemonic ≠ "SCALEDCOMPONENTOFFSET" ∧
          t.mnemonic ≠ "UNSCALEDCOMPONENTOFFSET" ∧ t.mnemonic ≠ "OFFSET" ∧
          t.mnemonic ≠ "ANCHOR" ∧ t.mnemonic ≠ "#PUSHON" ∧
          t.mnemonic ≠ "#PUSHOFF" ∧ t.mnemonic ≠ "#BEGIN" ∧
          t.mnemonic ≠ "#END" ∧ t.mnemonic ≠ "#PUSH" := by
        simpa [isMarker, and_assoc] using hpm
      have hb : pushOnBlocks mode (t :: rest) =
          if mode then t.stack_items :: pushOnBlocks mode rest
          else pushOnBlocks mode rest := by
        simp [pushOnBlocks, m7, m8]
      have hl : instrLines (t :: rest) =
          (t.mnemonic ++ "[" ++ t.flags ++ "]") :: instrLines rest := by
        simp [instrLines, m7, m8]
      cases mode with
      | true =>
        have hstep : stepToken
            ⟨true, [0], .scope ops :: lines.map Entry.line, comps, rtg, umm, so⟩
            t = .ok ⟨true, [0],
              .scope (t.stack_items ++ ops) ::
                (lines ++ [t.mnemonic ++ "[" ++ t.flags ++ "]"]).map Entry.line,
              comps, rtg, umm, so⟩ := by
          unfold stepToken
          simp only [if_neg m1, if_neg m2, if_neg m3, if_neg m4, if_neg m5,
            if_neg m6, if_neg m7, if_neg m8, if_neg m9, if_neg m10, if_neg m11,
            hpd, Bool.false_eq_true, if_false]
          cases hsi : t.stack_items with
          | nil => simp [emitLine, List.map_append]
          | cons x xs =>
            simp [emitLine, List.map_append, List.getElem?_cons_zero,
              List.set_cons_zero, hsi]
        have hpt : processTokens
            ⟨true, [0], .scope ops :: lines.map Entry.line, comps, rtg, umm, so⟩
            (t :: rest) = processTokens
            ⟨true, [0], .scope (t.stack_items ++ ops) :: (lines ++ [t.mnemonic ++ "[" ++ t.flags ++ "]"]).map Entry.line, comps, rtg, umm, so⟩
            rest := by
          conv_lhs => unfold processTokens
          rw [hstep]
        rw [hpt]
        rcases ih hrest true (t.stack_items ++ ops)
            (lines ++ [t.mnemonic ++ "[" ++ t.flags ++ "]"]) with
          ⟨e, he⟩ | ⟨mode', hok⟩
        · exact .inl ⟨e, he⟩
        · right
          refine ⟨mode', ?_⟩
          rw [hok, hb, hl]
          simp [List.reverse_cons, List.flatten_append, List.append_assoc]
      | false =>
        cases hsi : t.stack_items with
        | nil =>
          have hstep : stepToken
              ⟨false, [0], .scope ops :: lines.map Entry.line, comps, rtg, umm,
                so⟩ t =
              .ok ⟨false, [0],
                .scope ops ::
                  (lines ++ [t.mnemonic ++ "[" ++ t.flags ++ "]"]).map
                    Entry.line,
                comps, rtg, umm, so⟩ := by
            unfold stepToken
            simp only [if_neg m1, if_neg m2, if_neg m3, if_neg m4, if_neg m5,
              if_neg m6, if_neg m7, if_neg m8, if_neg m9, if_neg m10,
              if_neg m11, hpd, Bool.false_eq_true, if_false]
            simp [emitLine, List.map_append, hsi]
          have hpt : processTokens
              ⟨false, [0], .scope ops :: lines.map Entry.line, comps, rtg, umm, so⟩
              (t :: rest) = processTokens
              ⟨false, [0], .scope ops :: (lines ++ [t.mnemonic ++ "[" ++ t.flags ++ "]"]).map Entry.line, comps, rtg, umm, so⟩
              rest := by
            conv_lhs => unfold processTokens
            rw [hstep]
          rw [hpt]
          rcases ih hrest false ops
              (lines ++ [t.mnemonic ++ "[" ++ t.flags ++ "]"]) with
            ⟨e, he⟩ | ⟨mode', hok⟩
          · exact .inl ⟨e, he⟩
          · right
            refine ⟨mode', ?_⟩
            rw [hok, hb, hl]
            simp
        | cons x xs =>
          left
          refine ⟨.assertStackItems, ?_⟩
          unfold processTokens stepToken
          simp only [if_neg m1, if_neg m2, if_neg m3, if_neg m4, if_neg m5,
            if_neg m6, if_neg m7, if_neg m8, if_neg m9, if_neg m10, if_neg m11,
            hpd, Bool.false_eq_true, if_false]
          simp [hsi]
    · -- the "#PUSHON" toggle
      have hstep : stepToken
          ⟨mode, [0], .scope ops :: lines.map Entry.line, comps, rtg, umm, so⟩
          t = .ok ⟨true, [0], .scope ops :: lines.map Entry.line, comps, rtg,
            umm, so⟩ := by
        unfold stepToken
        simp [hm]
      have hpt : processTokens
          ⟨mode, [0], .scope ops :: lines.map Entry.line, comps, rtg, umm, so⟩
          (t :: rest) = processTokens
          ⟨true, [0], .scope ops :: lines.map Entry.line, comps, rtg, umm, so⟩
          rest := by
        conv_lhs => unfold processTokens
        rw [hstep]
      rw [hpt]
      rcases ih hrest true ops lines with ⟨e, he⟩ | ⟨mode', hok⟩
      · exact .inl ⟨e, he⟩
      · right
        refine ⟨mode', ?_⟩
        rw [hok]
        have hb : pushOnBlocks mode (t :: rest) = pushOnBlocks true rest := by
          simp [pushOnBlocks, hm]
        have hl : instrLines (t :: rest) = instrLines rest := by
          simp [instrLines, hm]
        rw [hb, hl]
    · -- the "#PUSHOFF" toggle
      have hstep : stepToken
          ⟨mode, [0], .scope ops :: lines.map Entry.line, comps, rtg, umm, so⟩
          t = .ok ⟨false, [0], .scope ops :: lines.map Entry.line, comps, rtg,
            umm, so⟩ := by
        unfold stepToken
        simp [hm]
      have hpt : processTokens
          ⟨mode, [0], .scope ops :: lines.map Entry.line, comps, rtg, umm, so⟩
          (t :: rest) = processTokens
          ⟨false, [0], .scope ops :: lines.map Entry.line, comps, rtg, umm, so⟩
          rest := by
        conv_lhs => unfold processTokens
        rw [hstep]
      rw [hpt]
      rcases ih hrest false ops lines with ⟨e, he⟩ | ⟨mode', hok⟩
      · exact .inl ⟨e, he⟩
      · right
        refine ⟨mode', ?_⟩
        rw [hok]
        have hb : pushOnBlocks mode (t :: rest) = pushOnBlocks false rest := by
          simp [pushOnBlocks, hm]
        have hl : instrLines (t :: rest) = instrLines rest := by
          simp [instrLines, hm]
        rw [hb, hl]

/-- C1, amended: for well-formed input with no scope or explicit-push
markers (plain instructions and push-mode toggles only), the output is at
most one `PUSH[]` line followed by one line per instruction in declaration
order.  The `PUSH[]` line is present exactly when some PUSH_ON-mode
instruction declared operands, and lists the operand groups of the PUSH_ON
instructions with each group in declaration order but the groups themselves
in reverse instruction order (operands are prepended per instruction, so
the first instruction's operands sit nearest the end, at the top of the
pushed stack). -/
theorem push_coalescing (tokens : List Token)
    (h : ∀ t ∈ tokens, plainTok t = true ∨ t.mnemonic = "#PUSHON" ∨
      t.mnemonic = "#PUSHOFF")
    (res : List String × List Component)
    (hok : transformLines tokens [] = .ok res) :
    res = ((if (pushOnBlocks true tokens).reverse.flatten = [] then []
            else [pushLine ((pushOnBlocks true tokens).reverse.flatten)]) ++
        instrLines tokens, []) := by
  have e1 : initState [] =
      ⟨true, [0], .scope [] :: ([] : List String).map Entry.line, [], false,
        false, none⟩ := rfl
  unfold transformLines at hok
  rw [e1] at hok
  rcases processTokens_plain tokens h true [] [] [] false false none with
    ⟨e, he⟩ | ⟨mode', hpt⟩
  · rw [he] at hok
    exact absurd hok (by simp)
  · rw [hpt] at hok
    unfold finalizeState at hok
    simp only [List.append_nil, List.nil_append, List.getElem?_cons_zero,
      if_pos rfl] at hok
    by_cases hE : (pushOnBlocks true tokens).reverse.flatten = []
    · rw [hE] at hok
      have hr : renderEntries
          (Entry.scope [] :: (instrLines tokens).map Entry.line) =
          .ok (instrLines tokens) := by
        show renderEntries ((instrLines tokens).map Entry.line) =
          .ok (instrLines tokens)
        exact renderEntries_lines _ (instrLines_ne_empty tokens)
      rw [hE, if_pos rfl]
      simp only [List.isEmpty_nil, if_true] at hok
      rw [hr] at hok
      have := (Except.ok.injEq _ _).mp hok
      simp [← this]
    · have hie : ((pushOnBlocks true tokens).reverse.flatten).isEmpty =
          false := by
        simpa [List.isEmpty_eq_false] using hE
      rw [hie] at hok
      simp only [Bool.false_eq_true, if_false, List.set_cons_zero] at hok
      have hr : renderEntries
          (Entry.line (pushLine ((pushOnBlocks true tokens).reverse.flatten)) ::
            (instrLines tokens).map Entry.line) =
          .ok (pushLine ((pushOnBlocks true tokens).reverse.flatten) ::
            instrLines tokens) := by
        show renderEntries
            ((pushLine ((pushOnBlocks true tokens).reverse.flatten) ::
              instrLines tokens).map Entry.line) = _
        refine renderEntries_lines _ ?_
        intro s hs
        rcases List.mem_cons.mp hs with rfl | hs2
        · exact pushLine_ne_empty _
        · exact instrLines_ne_empty tokens s hs2
      rw [hr] at hok
      have := (Except.ok.injEq _ _).mp hok
      rw [if_neg hE]
      simp [← this]

/-- Witness for C1 (amended) on a three-token input with a push-off
segment. -/
theorem push_coalescing_witness :
    ((["PUSH[] 5", "MDAP[1]", "SVTCA[0]"], ([] : List Component)) :
        List String × List Component) =
      ((if (pushOnBlocks true [⟨"MDAP", "1", [5], []⟩, ⟨"#PUSHOFF", "", [], []⟩,
              ⟨"SVTCA", "0", [], []⟩]).reverse.flatten = [] then []
        else [pushLine ((pushOnBlocks true [⟨"MDAP", "1", [5], []⟩,
              ⟨"#PUSHOFF", "", [], []⟩,
              ⟨"SVTCA", "0", [], []⟩]).reverse.flatten)]) ++
        instrLines [⟨"MDAP", "1", [5], []⟩, ⟨"#PUSHOFF", "", [], []⟩,
          ⟨"SVTCA", "0", [], []⟩], []) :=
  push_coalescing
    [⟨"MDAP", "1", [5], []⟩, ⟨"#PUSHOFF", "", [], []⟩, ⟨"SVTCA", "0", [], []⟩]
    (by decide) (["PUSH[] 5", "MDAP[1]", "SVTCA[0]"], []) rfl

/-! ## The scope-stack invariant and end-of-input imbalance detection (C4) -/

/-- Structural well-formedness of the in-flight scope data: the open-scope
stack is strictly decreasing (most recent on top), every open index
addresses a pending scope slot of the stream, and every non-empty pending
scope slot is an open index. -/
def ScopesInv (pis : List Nat) (strm : List Entry) : Prop :=
  List.Pairwise (· > ·) pis ∧
  (∀ j ∈ pis, ∃ ops, strm[j]? = some (Entry.scope ops)) ∧
  (∀ j ops, strm[j]? = some (Entry.scope ops) → ops ≠ [] → j ∈ pis)

theorem ScopesInv_init : ScopesInv [0] [Entry.scope []] := by
  refine ⟨by simp, ?_, ?_⟩
  · intro j hj
    rcases List.mem_singleton.mp hj with rfl
    exact ⟨[], rfl⟩
  · intro j ops hj hne
    cases j with
    | zero =>
      simp only [List.getElem?_cons_zero, Option.some.injEq] at hj
      cases hj
      exact absurd rfl hne
    | succ n => simp at hj

theorem getElem?_append_lt {α : Type} (l m : List α) (j : Nat)
    (h : j < l.length) : (l ++ m)[j]? = l[j]? := by
  rw [List.getElem?_append_left h]

theorem getElem?_append_ge {α : Type} (l m : List α) (j : Nat)
    (h : ¬j < l.length) : (l ++ m)[j]? = m[j - l.length]? := by
  rw [List.getElem?_append_right (Nat.le_of_not_lt h)]

theorem ScopesInv_append_line (pis : List Nat) (strm : List Entry)
    (s : String) (h : ScopesInv pis strm) :
    ScopesInv pis (strm ++ [Entry.line s]) := by
  obtain ⟨h1, h2, h3⟩ := h
  refine ⟨h1, ?_, ?_⟩
  · intro j hj
    obtain ⟨ops, hops⟩ := h2 j hj
    have hlt : j < strm.length := (List.getElem?_eq_some.mp hops).1
    exact ⟨ops, by rw [getElem?_append_lt _ _ _ hlt]; exact hops⟩
  · intro j ops hj hne
    by_cases hlt : j < strm.length
    · rw [getElem?_append_lt _ _ _ hlt] at hj
      exact h3 j ops hj hne
    · exfalso
      rw [getElem?_append_ge _ _ _ hlt] at hj
      cases hd : j - strm.length with
      | zero => rw [hd] at hj; simp at hj
      | succ n => rw [hd] at hj; simp at hj

theorem ScopesInv_begin (pis : List Nat) (strm : List Entry)
    (h : ScopesInv pis strm) :
    ScopesInv (strm.length :: pis) (strm ++ [Entry.scope []]) := by
  obtain ⟨h1, h2, h3⟩ := h
  have hlt : ∀ j ∈ pis, j < strm.length := by
    intro j hj
    obtain ⟨ops, hops⟩ := h2 j hj
    exact (List.getElem?_eq_some.mp hops).1
  refine ⟨List.pairwise_cons.mpr ⟨fun j hj => hlt j hj, h1⟩, ?_, ?_⟩
  · intro j hj
    rcases List.mem_cons.mp hj with rfl | hj2
    · refine ⟨[], ?_⟩
      rw [getElem?_append_ge _ _ _ (Nat.lt_irrefl _)]
      simp
    · obtain ⟨ops, hops⟩ := h2 j hj2
      exact ⟨ops, by rw [getElem?_append_lt _ _ _ (hlt j hj2)]; exact hops⟩
  · intro j ops hj hne
    by_cases hjl : j < strm.length
    · rw [getElem?_append_lt _ _ _ hjl] at hj
      exact List.mem_cons_of_mem _ (h3 j ops hj hne)
    · rw [getElem?_append_ge _ _ _ hjl] at hj
      cases hd : j - strm.length with
      | zero =>
        rw [hd] at hj
        simp only [List.getElem?_cons_zero, Option.some.injEq] at hj
        cases hj
        exact absurd rfl hne
      | succ n => rw [hd] at hj; simp at hj

theorem ScopesInv_set_scope (pi : Nat) (rest : List Nat) (strm : List Entry)
    (ops ops2 : List Int) (h : ScopesInv (pi :: rest) strm)
    (hslot : strm[pi]? = some (Entry.scope ops)) :
    ScopesInv (pi :: rest) (strm.set pi (Entry.scope ops2)) := by
  obtain ⟨h1, h2, h3⟩ := h
  have hpl : pi < strm.length := (List.getElem?_eq_some.mp hslot).1
  have hgt : ∀ j ∈ rest, pi > j := (List.pairwise_cons.mp h1).1
  refine ⟨h1, ?_, ?_⟩
  · intro j hj
    rcases List.mem_cons.mp hj with rfl | hj2
    · exact ⟨ops2, by rw [List.getElem?_set_eq_of_lt _ hpl]⟩
    · have hne : pi ≠ j := Nat.ne_of_gt (hgt j hj2)
      obtain ⟨o, ho⟩ := h2 j (List.mem_cons_of_mem _ hj2)
      exact ⟨o, by rw [List.getElem?_set_ne hne]; exact ho⟩
  · intro j o hj hone
    by_cases hje : pi = j
    · exact hje ▸ List.mem_cons_self _ _
    · rw [List.getElem?_set_ne hje] at hj
      exact h3 j o hj hone

theorem ScopesInv_end (pi : Nat) (rest : List Nat) (strm : List Entry)
    (ops : List Int) (h : ScopesInv (pi :: rest) strm)
    (hslot : strm[pi]? = some (Entry.scope ops)) :
    ScopesInv rest
      (if ops.isEmpty then strm else strm.set pi (Entry.line (pushLine ops))) := by
  obtain ⟨h1, h2, h3⟩ := h
  have hgt : ∀ j ∈ rest, pi > j := (List.pairwise_cons.mp h1).1
  have h1r : List.Pairwise (· > ·) rest := (List.pairwise_cons.mp h1).2
  by_cases he : ops.isEmpty
  · rw [if_pos he]
    refine ⟨h1r, ?_, ?_⟩
    · intro j hj
      exact h2 j (List.mem_cons_of_mem _ hj)
    · intro j o hj hone
      rcases List.mem_cons.mp (h3 j o hj hone) with rfl | hj2
      · exfalso
        rw [hslot] at hj
        simp only [Option.some.injEq] at hj
        cases hj
        rw [List.isEmpty_iff.mp he] at hone
        exact hone rfl
      · exact hj2
  · rw [if_neg he]
    refine ⟨h1r, ?_, ?_⟩
    · intro j hj
      have hne : pi ≠ j := Nat.ne_of_gt (hgt j hj)
      obtain ⟨o, ho⟩ := h2 j (List.mem_cons_of_mem _ hj)
      exact ⟨o, by rw [List.getElem?_set_ne hne]; exact ho⟩
    · intro j o hj hone
      by_cases hje : pi = j
      · exfalso
        subst hje
        have hpl : pi < strm.length := (List.getElem?_eq_some.mp hslot).1
        rw [List.getElem?_set_eq_of_lt _ hpl] at hj
        cases hj
      · rw [List.getElem?_set_ne hje] at hj
        rcases List.mem_cons.mp (h3 j o hj hone) with rfl | hj2
        · exact absurd rfl hje
        · exact hj2

/-- Every successful dispatch step preserves the scope invariant. -/
theorem stepToken_wf (st : TState) (t : Token) (st' : TState)
    (hstep : stepToken st t = .ok st')
    (hwf : ScopesInv st.push_indexes st.stream) :
    ScopesInv st'.push_indexes st'.stream := by
  unfold stepToken at hstep
  simp only [] at hstep
  by_cases e1 : t.mnemonic = "OVERLAP"
  · rw [if_pos e1] at hstep
    injection hstep with hh
    subst hh
    exact hwf
  rw [if_neg e1] at hstep
  by_cases e2 : t.mnemonic = "USEMYMETRICS"
  · rw [if_pos e2] at hstep
    injection hstep with hh
    subst hh
    exact hwf
  rw [if_neg e2] at hstep
  by_cases e3 : t.mnemonic = "SCALEDCOMPONENTOFFSET"
  · rw [if_pos e3] at hstep
    injection hstep with hh
    subst hh
    exact hwf
  rw [if_neg e3] at hstep
  by_cases e4 : t.mnemonic = "UNSCALEDCOMPONENTOFFSET"
  · rw [if_pos e4] at hstep
    injection hstep with hh
    subst hh
    exact hwf
  rw [if_neg e4] at hstep
  by_cases e5 : t.mnemonic = "OFFSET"
  · rw [if_pos e5] at hstep
    split at hstep
    · injection hstep with hh
      subst hh
      exact hwf
    · cases hstep
  rw [if_neg e5] at hstep
  by_cases e6 : t.mnemonic = "ANCHOR"
  · rw [if_pos e6] at hstep
    split at hstep
    · injection hstep with hh
      subst hh
      exact ScopesInv_append_line _ _ _ hwf
    · cases hstep
  rw [if_neg e6] at hstep
  by_cases e7 : t.mnemonic = "#PUSHON"
  · rw [if_pos e7] at hstep
    injection hstep with hh
    subst hh
    exact hwf
  rw [if_neg e7] at hstep
  by_cases e8 : t.mnemonic = "#PUSHOFF"
  · rw [if_pos e8] at hstep
    injection hstep with hh
    subst hh
    exact hwf
  rw [if_neg e8] at hstep
  by_cases e9 : t.mnemonic = "#BEGIN"
  · rw [if_pos e9] at hstep
    injection hstep with hh
    subst hh
    exact ScopesInv_begin _ _ hwf
  rw [if_neg e9] at hstep
  by_cases e10 : t.mnemonic = "#END"
  · rw [if_pos e10] at hstep
    split at hstep
    · cases hstep
    · rename_i pi rest heq
      split at hstep
      · rename_i ops heq2
        injection hstep with hh
        subst hh
        exact ScopesInv_end pi rest st.stream ops (heq ▸ hwf) heq2
      · cases hstep
  rw [if_neg e10] at hstep
  by_cases e11 : t.mnemonic = "#PUSH"
  · rw [if_pos e11] at hstep
    injection hstep with hh
    subst hh
    exact ScopesInv_append_line _ _ _ hwf
  rw [if_neg e11] at hstep
  by_cases e12 : startsWithDelta t.mnemonic = true
  · rw [if_pos e12] at hstep
    split at hstep
    · cases hstep
    split at hstep
    · cases hstep
    split at hstep
    · cases hstep
    rename_i pi rest heq
    split at hstep
    · rename_i ops heq2
      split at hstep
      · cases hstep
      · injection hstep with hh
        subst hh
        show ScopesInv st.push_indexes _
        rw [heq]
        exact ScopesInv_append_line _ _ _
          (ScopesInv_set_scope pi rest st.stream ops _ (heq ▸ hwf) heq2)
    · cases hstep
  rw [if_neg e12] at hstep
  split at hstep
  · -- PUSH_ON mode, ordinary instruction
    split at hstep
    · injection hstep with hh
      subst hh
      exact ScopesInv_append_line _ _ _ hwf
    · split at hstep
      · cases hstep
      rename_i pi rest heq
      split at hstep
      · rename_i ops heq2
        injection hstep with hh
        subst hh
        show ScopesInv st.push_indexes _
        rw [heq]
        exact ScopesInv_append_line _ _ _
          (ScopesInv_set_scope pi rest st.stream ops _ (heq ▸ hwf) heq2)
      · cases hstep
  · -- PUSH_OFF mode
    split at hstep
    · injection hstep with hh
      subst hh
      exact ScopesInv_append_line _ _ _ hwf
    · cases hstep

/-- The token loop preserves the scope invariant. -/
theorem processTokens_wf (ts : List Token) (st st' : TState)
    (h : processTokens st ts = .ok st')
    (hwf : ScopesInv st.push_indexes st.stream) :
    ScopesInv st'.push_indexes st'.stream := by
  induction ts generalizing st with
  | nil =>
    unfold processTokens at h
    injection h with hh
    subst hh
    exact hwf
  | cons t rest ih =>
    unfold processTokens at h
    cases hstep : stepToken st t with
    | error e => rw [hstep] at h; cases h
    | ok st1 =>
      rw [hstep] at h
      exact ih st1 h (stepToken_wf st t st1 hstep hwf)

theorem renderEntries_ok_of_no_pending (l : List Entry)
    (h : ∀ e ∈ l, ∀ ops, e = Entry.scope ops → ops = []) :
    ∃ ls, renderEntries l = .ok ls := by
  induction l with
  | nil => exact ⟨[], rfl⟩
  | cons e rest ih =>
    obtain ⟨ls, hls⟩ := ih (fun x hx => h x (List.mem_cons_of_mem _ hx))
    cases e with
    | scope ops =>
      have : ops = [] := h _ (List.mem_cons_self _ _) ops rfl
      subst this
      exact ⟨ls, by unfold renderEntries; exact hls⟩
    | line s =>
      refine ⟨if s = "" then ls else s :: ls, ?_⟩
      unfold renderEntries
      rw [hls]

/-- C4, amended: the scope-stack balance is checked only by the final
assert: whenever the token loop itself runs to completion, the
transformation succeeds exactly when one scope — the root, at position
0 — remains open, and otherwise fails with the scope-imbalance error, raised
at end-of-input.  (The loop itself can still fail mid-stream: a surplus
`#END` after the root has been closed raises an index error before
end-of-input, as the counterexample records.) -/
theorem scope_imbalance_at_end (tokens : List Token)
    (comps : List Component) (st' : TState)
    (h : processTokens (initState comps) tokens = .ok st') :
    (st'.push_indexes = [0] ∧ ∃ res, transformLines tokens comps = .ok res) ∨
    (st'.push_indexes ≠ [0] ∧
      transformLines tokens comps = .error .scopeImbalance) := by
  have hwf : ScopesInv st'.push_indexes st'.stream :=
    processTokens_wf tokens _ st' h ScopesInv_init
  have htr : transformLines tokens comps = finalizeState st' := by
    unfold transformLines
    rw [h]
  rw [htr]
  by_cases hpi : st'.push_indexes = [0]
  · left
    refine ⟨hpi, ?_⟩
    obtain ⟨ops, hslot⟩ := hwf.2.1 0 (by rw [hpi]; exact List.mem_singleton.mpr rfl)
    unfold finalizeState
    rw [if_pos hpi, hslot]
    have hnp : ∀ e ∈ (if ops.isEmpty then st'.stream
        else st'.stream.set 0 (Entry.line (pushLine ops))), ∀ o,
        e = Entry.scope o → o = [] := by
      intro e he o heo
      subst heo
      by_cases hoe : ops.isEmpty
      · rw [if_pos hoe] at he
        obtain ⟨j, hj⟩ := List.mem_iff_getElem?.mp he
        by_cases hone : o = []
        · exact hone
        · exfalso
          have hj0 : j ∈ st'.push_indexes := hwf.2.2 j o hj hone
          rw [hpi] at hj0
          rcases List.mem_singleton.mp hj0 with rfl
          rw [hslot] at hj
          simp only [Option.some.injEq] at hj
          cases hj
          exact hone (List.isEmpty_iff.mp hoe)
      · rw [if_neg hoe] at he
        obtain ⟨j, hj⟩ := List.mem_iff_getElem?.mp he
        by_cases hone : o = []
        · exact hone
        · exfalso
          by_cases hj0 : 0 = j
          · subst hj0
            have h0l : 0 < st'.stream.length :=
              (List.getElem?_eq_some.mp hslot).1
            rw [List.getElem?_set_eq_of_lt _ h0l] at hj
            cases hj
          · rw [List.getElem?_set_ne hj0] at hj
            have := hwf.2.2 j o hj hone
            rw [hpi] at this
            exact hj0 (List.mem_singleton.mp this).symm
    obtain ⟨ls, hls⟩ := renderEntries_ok_of_no_pending _ hnp
    show ∃ res,
      (match renderEntries (if ops.isEmpty then st'.stream
          else st'.stream.set 0 (Entry.line (pushLine ops))) with
        | Except.ok ls => Except.ok (ls, st'.components)
        | Except.error e => Except.error e) = Except.ok res
    rw [hls]
    exact ⟨(ls, st'.components), rfl⟩
  · right
    refine ⟨hpi, ?_⟩
    unfold finalizeState
    rw [if_neg hpi]

/-- Witness for C4 (amended) on a one-token input. -/
theorem scope_imbalance_at_end_witness :
    (((⟨true, [0], [.scope [], .line "SVTCA[0]"], [], false, false, none⟩ :
        TState).push_indexes = [0] ∧
      ∃ res, transformLines [⟨"SVTCA", "0", [], []⟩] [] = .ok res) ∨
    ((⟨true, [0], [.scope [], .line "SVTCA[0]"], [], false, false, none⟩ :
        TState).push_indexes ≠ [0] ∧
      transformLines [⟨"SVTCA", "0", [], []⟩] [] =
        .error .scopeImbalance)) :=
  scope_imbalance_at_end [⟨"SVTCA", "0", [], []⟩] []
    ⟨true, [0], [.scope [], .line "SVTCA[0]"], [], false, false, none⟩ rfl

/-! ## Counting `ANCHOR[...]` and `OFFSET[...]` output lines (C6) -/

/-- A line tagged as an `ANCHOR` instruction. -/
def isAnchorLine (s : String) : Bool := "ANCHOR[".data.isPrefixOf s.data

/-- A line tagged as an `OFFSET` instruction. -/
def isOffsetLine (s : String) : Bool := "OFFSET[".data.isPrefixOf s.data

/-- Lift a line predicate to stream entries (pending scopes never count). -/
def entryPred (p : String → Bool) : Entry → Bool
  | .line s => p s
  | .scope _ => false

/-- Count the finalized lines of a stream satisfying `p`. -/
def entryCountP (p : String → Bool) (l : List Entry) : Nat :=
  l.countP (entryPred p)

theorem bool_eq_false_of_imp {b : Bool} (h : b = true → False) :
    b = false := by
  cases b with
  | false => rfl
  | true => exact (h rfl).elim

theorem isPrefixOf_append_self {α : Type} [BEq α] [LawfulBEq α]
    (l r : List α) : l.isPrefixOf (l ++ r) = true := by
  induction l with
  | nil => cases r <;> rfl
  | cons a as ih => simp [List.isPrefixOf, ih]

theorem prefix_head {α : Type} [BEq α] [LawfulBEq α] (a : α) (as l : List α)
    (h : (a :: as).isPrefixOf l = true) : ∃ tl, l = a :: tl := by
  cases l with
  | nil => simp [List.isPrefixOf] at h
  | cons b bs =>
    simp only [List.isPrefixOf, Bool.and_eq_true, beq_iff_eq] at h
    exact ⟨bs, by rw [h.1]⟩

theorem isPrefixOf_bracket (xs : List Char) :
    ∀ l r : List Char, '[' ∉ xs → '[' ∉ l →
      (xs ++ ['[']).isPrefixOf (l ++ '[' :: r) = true → l = xs := by
  induction xs with
  | nil =>
    intro l r hxs hl h
    cases l with
    | nil => rfl
    | cons c cs =>
      simp only [List.nil_append, List.cons_append, List.isPrefixOf,
        Bool.and_eq_true, beq_iff_eq] at h
      exact absurd h.1.symm (fun hc => hl (hc ▸ List.mem_cons_self c cs))
  | cons x xs ih =>
    intro l r hxs hl h
    cases l with
    | nil =>
      simp only [List.cons_append, List.nil_append, List.isPrefixOf,
        Bool.and_eq_true, beq_iff_eq] at h
      exact absurd h.1 (fun hc => hxs (hc ▸ List.mem_cons_self x xs))
    | cons c cs =>
      simp only [List.cons_append, List.isPrefixOf, Bool.and_eq_true,
        beq_iff_eq] at h
      have hx : x = c := h.1
      have := ih cs r (fun hm => hxs (List.mem_cons_of_mem _ hm))
        (fun hm => hl (List.mem_cons_of_mem _ hm)) h.2
      rw [hx, this]

theorem line_data (m f : String) :
    (m ++ "[" ++ f ++ "]").data = m.data ++ '[' :: (f.data ++ [']']) := by
  simp [String.data_append]

theorem not_tag_of_head (s : String) (c : Char) (tl : List Char)
    (hd : s.data = c :: tl) (hA : c ≠ 'A') (hO : c ≠ 'O') :
    isAnchorLine s = false ∧ isOffsetLine s = false := by
  have hbA : ('A' == c) = false := beq_eq_false_iff_ne.mpr
    (fun hc => hA hc.symm)
  have hbO : ('O' == c) = false := beq_eq_false_iff_ne.mpr
    (fun hc => hO hc.symm)
  unfold isAnchorLine isOffsetLine
  rw [hd]
  constructor
  · show (('A' == c) && _) = false
    rw [hbA]
    rfl
  · show (('O' == c) && _) = false
    rw [hbO]
    rfl

theorem pushLine_not_tag (ops : List Int) :
    isAnchorLine (pushLine ops) = false ∧
    isOffsetLine (pushLine ops) = false := by
  refine not_tag_of_head _ 'P'
    (("USH[] ".data) ++ (String.intercalate " " (ops.map toString)).data) ?_
    (by decide) (by decide)
  show ("PUSH[] " ++ String.intercalate " " (ops.map toString)).data = _
  simp [String.data_append]

theorem generic_line_not_tag (m f : String) (hmA : m ≠ "ANCHOR")
    (hmO : m ≠ "OFFSET") (hbr : '[' ∉ m.data) :
    isAnchorLine (m ++ "[" ++ f ++ "]") = false ∧
    isOffsetLine (m ++ "[" ++ f ++ "]") = false := by
  constructor
  · unfold isAnchorLine
    rw [line_data]
    refine bool_eq_false_of_imp (fun hc => ?_)
    have := isPrefixOf_bracket ['A', 'N', 'C', 'H', 'O', 'R'] m.data _
      (by decide) hbr hc
    exact hmA (by apply String.ext; rw [this])
  · unfold isOffsetLine
    rw [line_data]
    refine bool_eq_false_of_imp (fun hc => ?_)
    have := isPrefixOf_bracket ['O', 'F', 'F', 'S', 'E', 'T'] m.data _
      (by decide) hbr hc
    exact hmO (by apply String.ext; rw [this])

theorem anchor_line_tag (f : String) :
    isAnchorLine ("ANCHOR" ++ "[" ++ f ++ "]") = true ∧
    isOffsetLine ("ANCHOR" ++ "[" ++ f ++ "]") = false := by
  constructor
  · unfold isAnchorLine
    rw [line_data]
    have h2 : ("ANCHOR" : String).data ++ '[' :: (f.data ++ [']']) =
        "ANCHOR[".data ++ (f.data ++ [']']) := by rfl
    rw [h2]
    exact isPrefixOf_append_self _ _
  · unfold isOffsetLine
    rw [line_data]
    refine bool_eq_false_of_imp (fun hc => ?_)
    have := isPrefixOf_bracket ['O', 'F', 'F', 'S', 'E', 'T']
      ("ANCHOR" : String).data _ (by decide) (by decide) hc
    revert this
    decide

theorem startsWithDelta_head (m : String) (h : startsWithDelta m = true) :
    ∃ tl, m.data = 'D' :: tl := by
  unfold startsWithDelta pyStartsWith at h
  rcases Bool.or_eq_true _ _ ▸ h with h2 | h2
  rotate_left
  · exact prefix_head _ _ _ h2
  rcases Bool.or_eq_true _ _ ▸ h2 with h3 | h3
  rotate_left
  · exact prefix_head _ _ _ h3
  rcases Bool.or_eq_true _ _ ▸ h3 with h4 | h4
  · exact prefix_head _ _ _ h4
  · exact prefix_head _ _ _ h4

theorem replaceFuel_head_D (fuel : Nat) (tl : List Char) :
    ∃ tl2, replaceFuel ['D', 'L', 'T'] "DELTA".data fuel ('D' :: tl) =
      'D' :: tl2 := by
  cases fuel with
  | zero => exact ⟨tl, rfl⟩
  | succ n =>
    unfold replaceFuel
    cases hsp : stripPat ['D', 'L', 'T'] ('D' :: tl) with
    | some r => exact ⟨_, rfl⟩
    | none => exact ⟨_, rfl⟩

theorem renamed_head_D (m : String) (h : startsWithDelta m = true) :
    ∃ tl, (if pyStartsWith m "DLT" then pyReplace m "DLT" "DELTA"
      else m).data = 'D' :: tl := by
  obtain ⟨tl, htl⟩ := startsWithDelta_head m h
  by_cases hdlt : pyStartsWith m "DLT" = true
  · rw [if_pos hdlt]
    unfold pyReplace
    show ∃ tl2, (String.mk (replaceFuel "DLT".data "DELTA".data
      m.data.length m.data)).data = 'D' :: tl2
    rw [htl]
    exact replaceFuel_head_D _ tl
  · rw [if_neg hdlt]
    exact ⟨tl, htl⟩

theorem countP_set_same (p : Entry → Bool) (l : List Entry) (i : Nat)
    (e x : Entry) (hsl : l[i]? = some e) (hpx : p x = p e) :
    (l.set i x).countP p = l.countP p := by
  induction l generalizing i with
  | nil => simp at hsl
  | cons a as ih =>
    cases i with
    | zero =>
      simp only [List.getElem?_cons_zero, Option.some.injEq] at hsl
      subst hsl
      simp [List.set_cons_zero, List.countP_cons, hpx]
    | succ n =>
      simp only [List.getElem?_cons_succ] at hsl
      simp [List.set_cons_succ, List.countP_cons, ih n hsl]

theorem entryCountP_append_line (p : String → Bool) (l : List Entry)
    (s : String) :
    entryCountP p (l ++ [Entry.line s]) =
      entryCountP p l + (if p s then 1 else 0) := by
  unfold entryCountP
  rw [List.countP_append]
  simp [List.countP_cons, entryPred]

theorem entryCountP_append_scope (p : String → Bool) (l : List Entry)
    (ops : List Int) :
    entryCountP p (l ++ [Entry.scope ops]) = entryCountP p l := by
  unfold entryCountP
  rw [List.countP_append]
  simp [List.countP_cons, entryPred]

/-- A successful dispatch step adds one `ANCHOR`-tagged line for an
`ANCHOR` token (given mnemonics free of `[`), no line otherwise, and never
an `OFFSET`-tagged line. -/
theorem stepToken_counts (st : TState) (t : Token) (st' : TState)
    (hstep : stepToken st t = .ok st') (hbr : '[' ∉ t.mnemonic.data) :
    entryCountP isAnchorLine st'.stream =
      entryCountP isAnchorLine st.stream +
        (if t.mnemonic = "ANCHOR" then 1 else 0) ∧
    entryCountP isOffsetLine st'.stream =
      entryCountP isOffsetLine st.stream := by
  unfold stepToken at hstep
  simp only [] at hstep
  by_cases e1 : t.mnemonic = "OVERLAP"
  · rw [if_pos e1] at hstep
    injection hstep with hh
    subst hh
    simp [e1]
  rw [if_neg e1] at hstep
  by_cases e2 : t.mnemonic = "USEMYMETRICS"
  · rw [if_pos e2] at hstep
    injection hstep with hh
    subst hh
    simp [e2]
  rw [if_neg e2] at hstep
  by_cases e3 : t.mnemonic = "SCALEDCOMPONENTOFFSET"
  · rw [if_pos e3] at hstep
    injection hstep with hh
    subst hh
    simp [e3]
  rw [if_neg e3] at hstep
  by_cases e4 : t.mnemonic = "UNSCALEDCOMPONENTOFFSET"
  · rw [if_pos e4] at hstep
    injection hstep with hh
    subst hh
    simp [e4]
  rw [if_neg e4] at hstep
  by_cases e5 : t.mnemonic = "OFFSET"
  · rw [if_pos e5] at hstep
    split at hstep
    · injection hstep with hh
      subst hh
      simp [e5]
    · cases hstep
  rw [if_neg e5] at hstep
  by_cases e6 : t.mnemonic = "ANCHOR"
  · rw [if_pos e6] at hstep
    split at hstep
    · injection hstep with hh
      subst hh
      show entryCountP isAnchorLine (st.stream ++
          [Entry.line (t.mnemonic ++ "[" ++ t.flags ++ "]")]) = _ ∧
        entryCountP isOffsetLine (st.stream ++
          [Entry.line (t.mnemonic ++ "[" ++ t.flags ++ "]")]) = _
      rw [entryCountP_append_line, entryCountP_append_line, if_pos e6]
      have htag1 : isAnchorLine (t.mnemonic ++ "[" ++ t.flags ++ "]") = true := by
        rw [e6]
        exact (anchor_line_tag t.flags).1
      have htag2 : isOffsetLine (t.mnemonic ++ "[" ++ t.flags ++ "]") = false := by
        rw [e6]
        exact (anchor_line_tag t.flags).2
      rw [htag1, htag2]
      simp
    · cases hstep
  rw [if_neg e6] at hstep
  by_cases e7 : t.mnemonic = "#PUSHON"
  · rw [if_pos e7] at hstep
    injection hstep with hh
    subst hh
    simp [e7]
  rw [if_neg e7] at hstep
  by_cases e8 : t.mnemonic = "#PUSHOFF"
  · rw [if_pos e8] at hstep
    injection hstep with hh
    subst hh
    simp [e8]
  rw [if_neg e8] at hstep
  by_cases e9 : t.mnemonic = "#BEGIN"
  · rw [if_pos e9] at hstep
    injection hstep with hh
    subst hh
    show entryCountP isAnchorLine (st.stream ++ [Entry.scope []]) = _ ∧
      entryCountP isOffsetLine (st.stream ++ [Entry.scope []]) = _
    rw [entryCountP_append_scope, entryCountP_append_scope, if_neg e6]
    simp
  rw [if_neg e9] at hstep
  by_cases e10 : t.mnemonic = "#END"
  · rw [if_pos e10] at hstep
    split at hstep
    · cases hstep
    · rename_i pi rest heq
      split at hstep
      · rename_i ops heq2
        injection hstep with hh
        subst hh
        show entryCountP isAnchorLine (if ops.isEmpty then st.stream
            else st.stream.set pi (Entry.line (pushLine ops))) = _ ∧
          entryCountP isOffsetLine (if ops.isEmpty then st.stream
            else st.stream.set pi (Entry.line (pushLine ops))) = _
        rw [if_neg e6]
        by_cases hoe : ops.isEmpty
        · rw [if_pos hoe]
          simp
        · rw [if_neg hoe]
          unfold entryCountP
          rw [countP_set_same (entryPred isAnchorLine) st.stream pi
              (Entry.scope ops) (Entry.line (pushLine ops)) heq2
              (by simp [entryPred, (pushLine_not_tag ops).1]),
            countP_set_same (entryPred isOffsetLine) st.stream pi
              (Entry.scope ops) (Entry.line (pushLine ops)) heq2
              (by simp [entryPred, (pushLine_not_tag ops).2])]
          simp
      · cases hstep
  rw [if_neg e10] at hstep
  by_cases e11 : t.mnemonic = "#PUSH"
  · rw [if_pos e11] at hstep
    injection hstep with hh
    subst hh
    show entryCountP isAnchorLine
        (st.stream ++ [Entry.line (pushLine t.stack_items)]) = _ ∧
      entryCountP isOffsetLine
        (st.stream ++ [Entry.line (pushLine t.stack_items)]) = _
    rw [entryCountP_append_line, entryCountP_append_line, if_neg e6,
      (pushLine_not_tag t.stack_items).1, (pushLine_not_tag t.stack_items).2]
    simp
  rw [if_neg e11] at hstep
  by_cases e12 : startsWithDelta t.mnemonic = true
  · rw [if_pos e12] at hstep
    split at hstep
    · cases hstep
    split at hstep
    · cases hstep
    split at hstep
    · cases hstep
    rename_i pi rest heq
    split at hstep
    · rename_i ops heq2
      split at hstep
      · cases hstep
      · rename_i pairs hpairs
        injection hstep with hh
        subst hh
        obtain ⟨tl, htl⟩ := renamed_head_D t.mnemonic e12
        obtain ⟨hA, hO⟩ := not_tag_of_head
          ((if pyStartsWith t.mnemonic "DLT" then
              pyReplace t.mnemonic "DLT" "DELTA" else t.mnemonic) ++
            "[" ++ t.flags ++ "]")
          'D' (tl ++ '[' :: (t.flags.data ++ [']']))
          (by rw [line_data, htl]; simp) (by decide) (by decide)
        have hmA : t.mnemonic ≠ "ANCHOR" := e6
        show entryCountP isAnchorLine
            ((st.stream.set pi (Entry.scope (pushDeltaOps (t.deltas.length : Int) pairs ops))) ++
              [Entry.line ((if pyStartsWith t.mnemonic "DLT" then pyReplace t.mnemonic "DLT" "DELTA" else t.mnemonic) ++ "[" ++ t.flags ++ "]")]) = _ ∧
          entryCountP isOffsetLine
            ((st.stream.set pi (Entry.scope (pushDeltaOps (t.deltas.length : Int) pairs ops))) ++
              [Entry.line ((if pyStartsWith t.mnemonic "DLT" then pyReplace t.mnemonic "DLT" "DELTA" else t.mnemonic) ++ "[" ++ t.flags ++ "]")]) = _
        rw [entryCountP_append_line, entryCountP_append_line, hA, hO,
          if_neg hmA]
        unfold entryCountP
        rw [countP_set_same (entryPred isAnchorLine) st.stream pi
            (Entry.scope ops)
            (Entry.scope (pushDeltaOps (t.deltas.length : Int) pairs ops))
            heq2 rfl,
          countP_set_same (entryPred isOffsetLine) st.stream pi
            (Entry.scope ops)
            (Entry.scope (pushDeltaOps (t.deltas.length : Int) pairs ops))
            heq2 rfl]
        simp
    · cases hstep
  rw [if_neg e12] at hstep
  obtain ⟨hgA, hgO⟩ := generic_line_not_tag t.mnemonic t.flags e6 e5 hbr
  split at hstep
  · split at hstep
    · injection hstep with hh
      subst hh
      show entryCountP isAnchorLine (st.stream ++
          [Entry.line (t.mnemonic ++ "[" ++ t.flags ++ "]")]) = _ ∧
        entryCountP isOffsetLine (st.stream ++
          [Entry.line (t.mnemonic ++ "[" ++ t.flags ++ "]")]) = _
      rw [entryCountP_append_line, entryCountP_append_line, if_neg e6,
        if_neg (by simp [hgA]), if_neg (by simp [hgO])]
      simp
    · split at hstep
      · cases hstep
      rename_i pi rest heq
      split at hstep
      · rename_i ops heq2
        injection hstep with hh
        subst hh
        show entryCountP isAnchorLine
            ((st.stream.set pi (Entry.scope (t.stack_items ++ ops))) ++
              [Entry.line (t.mnemonic ++ "[" ++ t.flags ++ "]")]) = _ ∧
          entryCountP isOffsetLine
            ((st.stream.set pi (Entry.scope (t.stack_items ++ ops))) ++
              [Entry.line (t.mnemonic ++ "[" ++ t.flags ++ "]")]) = _
        rw [entryCountP_append_line, entryCountP_append_line, if_neg e6,
          hgA, hgO]
        unfold entryCountP
        rw [countP_set_same (entryPred isAnchorLine) st.stream pi
            (Entry.scope ops) (Entry.scope (t.stack_items ++ ops)) heq2 rfl,
          countP_set_same (entryPred isOffsetLine) st.stream pi
            (Entry.scope ops) (Entry.scope (t.stack_items ++ ops)) heq2 rfl]
        simp
      · cases hstep
  · split at hstep
    · injection hstep with hh
      subst hh
      show entryCountP isAnchorLine (st.stream ++
          [Entry.line (t.mnemonic ++ "[" ++ t.flags ++ "]")]) = _ ∧
        entryCountP isOffsetLine (st.stream ++
          [Entry.line (t.mnemonic ++ "[" ++ t.flags ++ "]")]) = _
      rw [entryCountP_append_line, entryCountP_append_line, if_neg e6,
        if_neg (by simp [hgA]), if_neg (by simp [hgO])]
      simp
    · cases hstep

theorem processTokens_counts (ts : List Token) (st st' : TState)
    (h : processTokens st ts = .ok st')
    (hbr : ∀ t ∈ ts, '[' ∉ t.mnemonic.data) :
    entryCountP isAnchorLine st'.stream =
      entryCountP isAnchorLine st.stream +
        ts.countP (fun t => t.mnemonic = "ANCHOR") ∧
    entryCountP isOffsetLine st'.stream =
      entryCountP isOffsetLine st.stream := by
  induction ts generalizing st with
  | nil =>
    unfold processTokens at h
    injection h with hh
    subst hh
    simp
  | cons t rest ih =>
    unfold processTokens at h
    cases hstep : stepToken st t with
    | error e => rw [hstep] at h; cases h
    | ok st1 =>
      rw [hstep] at h
      obtain ⟨hA1, hO1⟩ := stepToken_counts st t st1 hstep
        (hbr t (List.mem_cons_self _ _))
      obtain ⟨hA2, hO2⟩ := ih st1 h (fun x hx => hbr x (List.mem_cons_of_mem _ hx))
      refine ⟨?_, by rw [hO2, hO1]⟩
      rw [hA2, hA1, List.countP_cons]
      by_cases hm : t.mnemonic = "ANCHOR"
      · simp [hm]
        omega
      · simp [hm]

theorem renderEntries_countP (l : List Entry) (ls : List String)
    (h : renderEntries l = .ok ls) (p : String → Bool) (hp : p "" = false) :
    ls.countP p = entryCountP p l := by
  induction l generalizing ls with
  | nil =>
    unfold renderEntries at h
    injection h with hh
    subst hh
    rfl
  | cons e rest ih =>
    cases e with
    | scope ops =>
      cases ops with
      | nil =>
        unfold renderEntries at h
        rw [ih ls h]
        unfold entryCountP
        simp [List.countP_cons, entryPred]
      | cons a as =>
        unfold renderEntries at h
        cases h
    | line s =>
      unfold renderEntries at h
      cases hr : renderEntries rest with
      | error e => rw [hr] at h; cases h
      | ok ls2 =>
        rw [hr] at h
        injection h with hh
        subst hh
        unfold entryCountP
        rw [List.countP_cons]
        by_cases hs : s = ""
        · rw [if_pos hs]
          have : p s = false := hs ▸ hp
          simp [entryPred, this, ih ls2 hr, entryCountP]
        · rw [if_neg hs]
          rw [List.countP_cons]
          simp [entryPred, ih ls2 hr, entryCountP]

theorem isAnchorLine_empty : isAnchorLine "" = false := by decide

theorem isOffsetLine_empty : isOffsetLine "" = false := by decide

/-- C6: over any well-formed input (token mnemonics never contain `[`),
`OFFSET` declarations contribute no instruction line while every `ANCHOR`
declaration contributes exactly one: in the output lines, the number of
`ANCHOR`-tagged lines equals the number of `ANCHOR` tokens, and the number
of `OFFSET`-tagged lines is zero. -/
theorem anchor_offset_line_counts (tokens : List Token)
    (comps : List Component) (res : List String × List Component)
    (hbr : ∀ t ∈ tokens, '[' ∉ t.mnemonic.data)
    (hok : transformLines tokens comps = .ok res) :
    res.1.countP isAnchorLine =
      tokens.countP (fun t => t.mnemonic = "ANCHOR") ∧
    res.1.countP isOffsetLine = 0 := by
  cases hp : processTokens (initState comps) tokens with
  | error e =>
    exfalso
    unfold transformLines at hok
    rw [hp] at hok
    cases hok
  | ok st' =>
    have htr : transformLines tokens comps = finalizeState st' := by
      unfold transformLines
      rw [hp]
    rw [htr] at hok
    obtain ⟨hA, hO⟩ := processTokens_counts tokens _ st' hp hbr
    have h0A : entryCountP isAnchorLine (initState comps).stream = 0 := rfl
    have h0O : entryCountP isOffsetLine (initState comps).stream = 0 := rfl
    rw [h0A] at hA
    rw [h0O] at hO
    unfold finalizeState at hok
    split at hok
    rotate_left
    · cases hok
    split at hok
    rotate_left
    · cases hok
    rename_i hpi x ops heq0
    split at hok
    rotate_left
    · cases hok
    rename_i ls hls
    injection hok with hh
    subst hh
    have hcA := renderEntries_countP _ _ hls isAnchorLine isAnchorLine_empty
    have hcO := renderEntries_countP _ _ hls isOffsetLine isOffsetLine_empty
    by_cases hoe : ops.isEmpty
    · rw [if_pos hoe] at hcA hcO
      exact ⟨by rw [hcA, hA]; omega, by rw [hcO, hO]⟩
    · rw [if_neg hoe] at hcA hcO
      unfold entryCountP at hcA hcO
      rw [countP_set_same (entryPred isAnchorLine) st'.stream 0
          (Entry.scope ops) (Entry.line (pushLine ops)) heq0
          (by simp [entryPred, (pushLine_not_tag ops).1])] at hcA
      rw [countP_set_same (entryPred isOffsetLine) st'.stream 0
          (Entry.scope ops) (Entry.line (pushLine ops)) heq0
          (by simp [entryPred, (pushLine_not_tag ops).2])] at hcO
      unfold entryCountP at hA hO
      exact ⟨by rw [hcA, hA]; omega, by rw [hcO]; exact hO⟩

/-- Witness for C6 on a mixed input with an anchor, an offset and a plain
instruction. -/
theorem anchor_offset_line_counts_witness :
    (["PUSH[] 8", "ANCHOR[]", "MDAP[1]"] : List String).countP isAnchorLine =
      ([⟨"ANCHOR", "", [1, 5, 7], []⟩, ⟨"OFFSET", "1", [2, 10, -20], []⟩,
        ⟨"MDAP", "1", [8], []⟩] : List Token).countP
        (fun t => t.mnemonic = "ANCHOR") ∧
    (["PUSH[] 8", "ANCHOR[]", "MDAP[1]"] : List String).countP
      isOffsetLine = 0 :=
  anchor_offset_line_counts
    [⟨"ANCHOR", "", [1, 5, 7], []⟩, ⟨"OFFSET", "1", [2, 10, -20], []⟩,
      ⟨"MDAP", "1", [8], []⟩] []
    (["PUSH[] 8", "ANCHOR[]", "MDAP[1]"],
      [.anchor 1 5 7 false none, .offset 2 10 (-20) true false none])
    (by decide) rfl

/-! ## What `write_composite_info` preserves around the declarations (C9) -/

/-- The unmatched remainder of one scan chunk. -/
def chunkResidue (chunk : List Char) : List Char :=
  match declLineMatch chunk with
  | some leftover => leftover
  | none => chunk

/-- The input text with every recognized declaration match deleted. -/
def stripDecls (data : List Char) : List Char :=
  ((splitAfterLF data).map chunkResidue).flatten

theorem scanLines_residues (ls : List (List Char)) :
    (scanLines ls).1 ++ (scanLines ls).2.1 = (ls.map chunkResidue).flatten ∧
    ((scanLines ls).2.2 = false → (scanLines ls).1 = []) := by
  induction ls with
  | nil => simp [scanLines]
  | cons chunk rest ih =>
    rcases hsr : scanLines rest with ⟨h, t, f⟩
    rw [hsr] at ih
    dsimp only at ih
    unfold scanLines
    rw [hsr]
    cases hm : declLineMatch chunk with
    | some leftover =>
      have hres : chunkResidue chunk = leftover := by
        unfold chunkResidue
        rw [hm]
      cases f with
      | true =>
        dsimp only
        rw [if_pos rfl]
        dsimp only
        refine ⟨?_, fun hc => absurd hc (by simp)⟩
        simp only [List.map_cons, List.flatten_cons, hres]
        rw [List.append_assoc, ih.1]
      | false =>
        dsimp only
        rw [if_neg Bool.false_ne_true]
        dsimp only
        refine ⟨?_, fun hc => absurd hc (by simp)⟩
        have hh : h = [] := ih.2 rfl
        simp only [List.map_cons, List.flatten_cons, hres]
        rw [← ih.1, hh]
        simp
    | none =>
      have hres : chunkResidue chunk = chunk := by
        unfold chunkResidue
        rw [hm]
      cases f with
      | true =>
        dsimp only
        rw [if_pos rfl]
        dsimp only
        refine ⟨?_, fun hc => absurd hc (by simp)⟩
        simp only [List.map_cons, List.flatten_cons, hres]
        rw [List.append_assoc, ih.1]
      | false =>
        dsimp only
        rw [if_neg Bool.false_ne_true]
        dsimp only
        refine ⟨?_, fun _ => rfl⟩
        have hh : h = [] := ih.2 rfl
        simp only [List.map_cons, List.flatten_cons, hres]
        rw [← ih.1, hh]
        simp

/-- C9, amended: `write_composite_info` returns its head and tail verbatim
around the regenerated block, and together they are exactly the input text
with every recognized declaration deleted: the head is the concatenation of
all unmatched gaps up to the last match (not only the text before the first
declaration), the tail is the text after the last match, so no
non-declaration text is lost — though interior gaps are moved into the
head, in front of the regenerated block. -/
theorem head_tail_strip (glyph : List GlyphComponent)
    (glyph_order : List String) (data : String) (vtt_version : Nat)
    (r : String × String × String)
    (h : write_composite_info glyph glyph_order data vtt_version = .ok r) :
    r.1.data ++ r.2.2.data = stripDecls data.data := by
  unfold write_composite_info at h
  cases hm : glyph.mapM (componentInstr glyph_order vtt_version) with
  | error e => rw [hm] at h; cases h
  | ok pieces =>
    rw [hm] at h
    injection h with hh
    subst hh
    show (wciSplit data.data).1 ++ (wciSplit data.data).2 = _
    unfold wciSplit stripDecls
    exact (scanLines_residues (splitAfterLF data.data)).1

/-- Witness for C9 (amended): interleaved text and declarations. -/
theorem head_tail_strip_witness :
    ("X\nY\n" : String).data ++ ("Z" : String).data =
      stripDecls ("X\nUSEMYMETRICS[]\nY\nOVERLAP[]\nZ" : String).data :=
  head_tail_strip [] [] "X\nUSEMYMETRICS[]\nY\nOVERLAP[]\nZ" 6
    ("X\nY\n", "", "Z") rfl

/-- C9, counterexample: the head is not "everything before the first
recognized declaration".  On `X\nUSEMYMETRICS[]\nY\nOVERLAP[]\nZ` (no
outline components, so the regenerated block is empty) the code returns the
head `X\nY\n` — the concatenation of *all* gaps between matches — where the
claim requires `X\n`. -/
theorem head_counterexample :
    write_composite_info [] [] "X\nUSEMYMETRICS[]\nY\nOVERLAP[]\nZ" 6 =
      .ok ("X\nY\n", "", "Z") ∧ ("X\nY\n" : String) ≠ "X\n" :=
  ⟨rfl, by decide⟩

/-! ## The stored-program normal form (C10) -/

/-- A chunk of text free of line terminators. -/
@[reducible] def noNL (l : List Char) : Prop := ∀ c ∈ l, c ≠ '\n' ∧ c ≠ '\r'

/-- A run of whitespace bytes (as `bytes.rstrip` strips them). -/
@[reducible] def allSpace (w : List Char) : Prop := ∀ c ∈ w, pyIsSpace c = true

theorem splitlinesGo_nil (acc : List Char) :
    splitlinesGo [] acc = if acc.isEmpty then [] else [acc.reverse] := rfl

theorem splitlinesGo_crlf (rest acc : List Char) :
    splitlinesGo ('\r' :: '\n' :: rest) acc =
      acc.reverse :: splitlinesGo rest [] := rfl

theorem splitlinesGo_lf (rest acc : List Char) :
    splitlinesGo ('\n' :: rest) acc = acc.reverse :: splitlinesGo rest [] := rfl

theorem splitlinesGo_cr (c2 : Char) (r2 acc : List Char) (h : c2 ≠ '\n') :
    splitlinesGo ('\r' :: c2 :: r2) acc =
      acc.reverse :: splitlinesGo (c2 :: r2) [] := by
  conv_lhs => unfold splitlinesGo
  split
  · rename_i heq
    exact absurd heq (by simp)
  · rename_i rest heq
    injection heq with ha hb
    injection hb with hc hd
    exact absurd hc h
  · rename_i rest hne heq
    injection heq with ha hb
    rw [hb]
  · rename_i rest heq
    injection heq with ha hb
    exact absurd ha.symm (by decide)
  · rename_i c rest hne h1 h2 heq
    injection heq with ha hb
    exact ((h1 ha.symm).elim)

theorem splitlinesGo_other (c : Char) (rest acc : List Char) (h1 : c ≠ '\r')
    (h2 : c ≠ '\n') :
    splitlinesGo (c :: rest) acc = splitlinesGo rest (c :: acc) := by
  conv_lhs => unfold splitlinesGo
  split
  · rename_i heq
    exact absurd heq (by simp)
  · rename_i r heq
    injection heq with ha hb
    exact absurd ha h1
  · rename_i r hne heq
    injection heq with ha hb
    exact absurd ha h1
  · rename_i r heq
    injection heq with ha hb
    exact absurd ha h2
  · rename_i c3 r hne hh1 hh2 heq
    injection heq with ha hb
    rw [ha, hb]

theorem splitlinesGo_cr_of_not_lf (J acc : List Char) (hJ : '\n' ∉ J) :
    splitlinesGo ('\r' :: J) acc = acc.reverse :: splitlinesGo J [] := by
  cases J with
  | nil => rfl
  | cons c2 r2 =>
    exact splitlinesGo_cr c2 r2 acc
      (fun hc => hJ (hc ▸ List.mem_cons_self _ _))

theorem splitlinesGo_noNL (l acc : List Char) :
    noNL acc → ∀ s ∈ splitlinesGo l acc, noNL s := by
  induction l, acc using splitlinesGo.induct with
  | case1 acc hempty =>
    intro hacc s hs
    rw [splitlinesGo_nil, if_pos hempty] at hs
    simp at hs
  | case2 acc hempty =>
    intro hacc s hs
    rw [splitlinesGo_nil, if_neg hempty] at hs
    rcases List.mem_singleton.mp hs with rfl
    intro c hc
    exact hacc c (List.mem_reverse.mp hc)
  | case3 rest acc ih =>
    intro hacc s hs
    rw [splitlinesGo_crlf] at hs
    rcases List.mem_cons.mp hs with rfl | hs2
    · intro c hc
      exact hacc c (List.mem_reverse.mp hc)
    · exact ih (by intro c hc; cases hc) s hs2
  | case4 rest acc hne ih =>
    intro hacc s hs
    have heq : splitlinesGo ('\r' :: rest) acc =
        acc.reverse :: splitlinesGo rest [] := by
      cases rest with
      | nil => rfl
      | cons c2 r2 =>
        exact splitlinesGo_cr c2 r2 acc (fun hc => hne r2 (by rw [hc]))
    rw [heq] at hs
    rcases List.mem_cons.mp hs with rfl | hs2
    · intro c hc
      exact hacc c (List.mem_reverse.mp hc)
    · exact ih (by intro c hc; cases hc) s hs2
  | case5 rest acc ih =>
    intro hacc s hs
    rw [splitlinesGo_lf] at hs
    rcases List.mem_cons.mp hs with rfl | hs2
    · intro c hc
      exact hacc c (List.mem_reverse.mp hc)
    · exact ih (by intro c hc; cases hc) s hs2
  | case6 c rest acc hg h1 h2 ih =>
    intro hacc s hs
    rw [splitlinesGo_other c rest acc (fun hc => h1 hc) (fun hc => h2 hc)] at hs
    refine ih ?_ s hs
    intro d hd
    rcases List.mem_cons.mp hd with rfl | hd2
    · exact ⟨fun hc => h2 hc, fun hc => h1 hc⟩
    · exact hacc d hd2

theorem mem_joinSep (sep : List Char) (ls : List (List Char)) (c : Char)
    (h : c ∈ joinSep sep ls) : c ∈ sep ∨ ∃ l ∈ ls, c ∈ l := by
  induction ls with
  | nil => simp [joinSep] at h
  | cons x xs ih =>
    cases xs with
    | nil =>
      refine .inr ⟨x, by simp, ?_⟩
      simpa [joinSep] using h
    | cons y ys =>
      rw [show joinSep sep (x :: y :: ys) = x ++ sep ++ joinSep sep (y :: ys)
        from rfl] at h
      rcases List.mem_append.mp h with h2 | h2
      · rcases List.mem_append.mp h2 with h3 | h3
        · exact .inr ⟨x, by simp, h3⟩
        · exact .inl h3
      · rcases ih h2 with h3 | ⟨l, hl, hcl⟩
        · exact .inl h3
        · exact .inr ⟨l, List.mem_cons_of_mem _ hl, hcl⟩

theorem dropWhile_idem (p : Char → Bool) (l : List Char) :
    (l.dropWhile p).dropWhile p = l.dropWhile p := by
  induction l with
  | nil => rfl
  | cons a l ih =>
    by_cases h : p a
    · simp [List.dropWhile_cons, h, ih]
    · simp [List.dropWhile_cons, h]

theorem rstrip_idem (l : List Char) : rstrip (rstrip l) = rstrip l := by
  unfold rstrip
  rw [List.reverse_reverse, dropWhile_idem]

theorem mem_rstrip (l : List Char) (c : Char) (h : c ∈ rstrip l) : c ∈ l := by
  unfold rstrip at h
  have h2 := List.mem_reverse.mp h
  have h3 := (List.dropWhile_sublist (l := l.reverse) (p := pyIsSpace)).mem h2
  exact List.mem_reverse.mp h3

theorem dropWhile_append_all (p : Char → Bool) (a b : List Char)
    (h : ∀ c ∈ a, p c = true) : (a ++ b).dropWhile p = b.dropWhile p := by
  induction a with
  | nil => rfl
  | cons x xs ih =>
    rw [List.cons_append, List.dropWhile_cons,
      if_pos (h x (List.mem_cons_self _ _))]
    exact ih (fun c hc => h c (List.mem_cons_of_mem _ hc))

theorem rstrip_append_space (x w : List Char) (h : ∀ c ∈ w, pyIsSpace c = true) :
    rstrip (x ++ w) = rstrip x := by
  unfold rstrip
  rw [List.reverse_append,
    dropWhile_append_all pyIsSpace w.reverse x.reverse
      (fun c hc => h c (List.mem_reverse.mp hc))]

theorem splitlinesGo_chunk (a : List Char) (r acc : List Char) (ha : noNL a) :
    splitlinesGo (a ++ r) acc = splitlinesGo r (a.reverse ++ acc) := by
  induction a generalizing acc with
  | nil => simp
  | cons c a2 ih =>
    have hc := ha c (List.mem_cons_self _ _)
    rw [List.cons_append, splitlinesGo_other c (a2 ++ r) acc hc.2 hc.1,
      ih (c :: acc) (fun x hx => ha x (List.mem_cons_of_mem _ hx))]
    simp

theorem joinSep_cons_formula (x : List Char) (L : List (List Char)) :
    joinSep ['\r'] (x :: L) =
      x ++ (if L.isEmpty then [] else '\r' :: joinSep ['\r'] L) := by
  cases L with
  | nil => simp [joinSep]
  | cons y ys => simp [joinSep]

theorem splitlinesGo_ne_nil (l acc : List Char) :
    l ≠ [] → splitlinesGo l acc ≠ [] := by
  induction l, acc using splitlinesGo.induct with
  | case1 acc hempty => intro h; exact absurd rfl h
  | case2 acc hempty => intro h; exact absurd rfl h
  | case3 rest acc ih =>
    intro _
    rw [splitlinesGo_crlf]
    exact List.cons_ne_nil _ _
  | case4 rest acc hne ih =>
    intro _
    have heq : splitlinesGo ('\r' :: rest) acc =
        acc.reverse :: splitlinesGo rest [] := by
      cases rest with
      | nil => rfl
      | cons c2 r2 =>
        exact splitlinesGo_cr c2 r2 acc (fun hc => hne r2 (by rw [hc]))
    rw [heq]
    exact List.cons_ne_nil _ _
  | case5 rest acc ih =>
    intro _
    rw [splitlinesGo_lf]
    exact List.cons_ne_nil _ _
  | case6 c rest acc hg h1 h2 ih =>
    intro _
    rw [splitlinesGo_other c rest acc (fun hc => h1 hc) (fun hc => h2 hc)]
    cases rest with
    | nil =>
      rw [splitlinesGo_nil, if_neg (by simp)]
      exact List.cons_ne_nil _ _
    | cons d r2 => exact ih (List.cons_ne_nil _ _)

theorem splitlinesGo_cr_eq (rest acc : List Char)
    (hne : ∀ r2, rest = '\n' :: r2 → False) :
    splitlinesGo ('\r' :: rest) acc = acc.reverse :: splitlinesGo rest [] := by
  cases rest with
  | nil => rfl
  | cons c2 r2 => exact splitlinesGo_cr c2 r2 acc (fun hc => hne r2 (by rw [hc]))

theorem joinSep_extend (acc : List Char) (L M : List (List Char)) (u : List Char)
    (hLM : joinSep ['\r'] M = joinSep ['\r'] L ++ u)
    (hsu : allSpace u)
    (hNE : ¬L.isEmpty = true → ¬M.isEmpty = true) :
    ∃ u2, joinSep ['\r'] (acc.reverse :: M) =
        joinSep ['\r'] (acc.reverse :: L) ++ u2 ∧ allSpace u2 := by
  by_cases hL : L.isEmpty
  · have hLnil : L = [] := List.isEmpty_iff.mp hL
    subst hLnil
    have hu : joinSep ['\r'] M = u := by simpa [joinSep] using hLM
    by_cases hM : M.isEmpty
    · have hMnil : M = [] := List.isEmpty_iff.mp hM
      subst hMnil
      exact ⟨[], by simp [joinSep], fun c hc => absurd hc (by simp)⟩
    · refine ⟨'\r' :: u, ?_, ?_⟩
      · rw [joinSep_cons_formula, if_neg hM, hu]
        simp [joinSep]
      · intro c hc
        rcases List.mem_cons.mp hc with rfl | h2
        · decide
        · exact hsu c h2
  · have hM : ¬M.isEmpty = true := hNE hL
    refine ⟨u, ?_, hsu⟩
    rw [joinSep_cons_formula, joinSep_cons_formula, if_neg hL, if_neg hM, hLM]
    simp

theorem joinSep_splitlinesGo_space (w acc : List Char) :
    allSpace w → ∃ u,
      joinSep ['\r'] (splitlinesGo w acc) = acc.reverse ++ u ∧ allSpace u := by
  induction w, acc using splitlinesGo.induct with
  | case1 acc hempty =>
    intro _
    refine ⟨[], ?_, fun c hc => absurd hc (by simp)⟩
    rw [splitlinesGo_nil, if_pos hempty]
    have hn : acc = [] := List.isEmpty_iff.mp hempty
    subst hn
    rfl
  | case2 acc hempty =>
    intro _
    refine ⟨[], ?_, fun c hc => absurd hc (by simp)⟩
    rw [splitlinesGo_nil, if_neg hempty]
    simp [joinSep]
  | case3 rest acc ih =>
    intro hw
    obtain ⟨u, hu, hsu⟩ := ih (fun c hc => hw c (by simp [hc]))
    rw [splitlinesGo_crlf]
    obtain ⟨u2, he, hs2⟩ := joinSep_extend acc [] (splitlinesGo rest []) u
      (by simpa using hu) hsu (fun hL => absurd rfl hL)
    refine ⟨u2, ?_, hs2⟩
    rw [he]
    simp [joinSep]
  | case4 rest acc hne ih =>
    intro hw
    obtain ⟨u, hu, hsu⟩ := ih (fun c hc => hw c (by simp [hc]))
    rw [splitlinesGo_cr_eq rest acc hne]
    obtain ⟨u2, he, hs2⟩ := joinSep_extend acc [] (splitlinesGo rest []) u
      (by simpa using hu) hsu (fun hL => absurd rfl hL)
    refine ⟨u2, ?_, hs2⟩
    rw [he]
    simp [joinSep]
  | case5 rest acc ih =>
    intro hw
    obtain ⟨u, hu, hsu⟩ := ih (fun c hc => hw c (by simp [hc]))
    rw [splitlinesGo_lf]
    obtain ⟨u2, he, hs2⟩ := joinSep_extend acc [] (splitlinesGo rest []) u
      (by simpa using hu) hsu (fun hL => absurd rfl hL)
    refine ⟨u2, ?_, hs2⟩
    rw [he]
    simp [joinSep]
  | case6 c rest acc hg h1 h2 ih =>
    intro hw
    obtain ⟨u, hu, hsu⟩ := ih (fun d hd => hw d (by simp [hd]))
    rw [splitlinesGo_other c rest acc (fun hc => h1 hc) (fun hc => h2 hc)]
    refine ⟨c :: u, ?_, ?_⟩
    · rw [hu]
      simp
    · intro d hd
      rcases List.mem_cons.mp hd with rfl | hd2
      · exact hw d (List.mem_cons_self _ _)
      · exact hsu d hd2

theorem joinSep_splitlinesGo_append_space (w : List Char) (hw : allSpace w)
    (s acc : List Char) : ∃ u,
      joinSep ['\r'] (splitlinesGo (s ++ w) acc) =
        joinSep ['\r'] (splitlinesGo s acc) ++ u ∧ allSpace u := by
  induction s, acc using splitlinesGo.induct with
  | case1 acc hempty =>
    obtain ⟨u, hu, hsu⟩ := joinSep_splitlinesGo_space w acc hw
    refine ⟨u, ?_, hsu⟩
    rw [List.nil_append, hu, splitlinesGo_nil, if_pos hempty]
    have hn : acc = [] := List.isEmpty_iff.mp hempty
    subst hn
    rfl
  | case2 acc hempty =>
    obtain ⟨u, hu, hsu⟩ := joinSep_splitlinesGo_space w acc hw
    refine ⟨u, ?_, hsu⟩
    rw [List.nil_append, hu, splitlinesGo_nil, if_neg hempty]
    simp [joinSep]
  | case3 rest acc ih =>
    obtain ⟨u, hu, hsu⟩ := ih
    rw [show ('\r' :: '\n' :: rest) ++ w = '\r' :: '\n' :: (rest ++ w) from rfl,
      splitlinesGo_crlf, splitlinesGo_crlf]
    exact joinSep_extend acc (splitlinesGo rest []) (splitlinesGo (rest ++ w) [])
      u hu hsu
      (fun hL hM =>
        splitlinesGo_ne_nil (rest ++ w) []
          (fun hnil => hL (by rw [(List.append_eq_nil.mp hnil).1]; rfl))
          (List.isEmpty_iff.mp hM))
  | case4 rest acc hne ih =>
    cases rest with
    | nil =>
      have hZ : ∃ Z, splitlinesGo ('\r' :: w) acc =
          acc.reverse :: splitlinesGo Z [] ∧ allSpace Z := by
        cases w with
        | nil => exact ⟨[], rfl, fun c hc => absurd hc (by simp)⟩
        | cons c2 w2 =>
          by_cases hc2 : c2 = '\n'
          · subst hc2
            exact ⟨w2, splitlinesGo_crlf w2 acc, fun c hc => hw c (by simp [hc])⟩
          · exact ⟨c2 :: w2, splitlinesGo_cr c2 w2 acc hc2, hw⟩
      obtain ⟨Z, hZeq, hZsp⟩ := hZ
      obtain ⟨u, hu, hsu⟩ := joinSep_splitlinesGo_space Z [] hZsp
      obtain ⟨u2, he, hs2⟩ := joinSep_extend acc [] (splitlinesGo Z []) u
        (by simpa using hu) hsu (fun hL => absurd rfl hL)
      refine ⟨u2, ?_, hs2⟩
      show joinSep ['\r'] (splitlinesGo ('\r' :: ([] ++ w)) acc) =
        joinSep ['\r'] [acc.reverse] ++ u2
      rw [List.nil_append, hZeq]
      exact he
    | cons c2 r2 =>
      have hc2 : c2 ≠ '\n' := fun hc => hne r2 (by rw [hc])
      obtain ⟨u, hu, hsu⟩ := ih
      rw [show ('\r' :: c2 :: r2) ++ w = '\r' :: c2 :: (r2 ++ w) from rfl,
        splitlinesGo_cr c2 (r2 ++ w) acc hc2, splitlinesGo_cr c2 r2 acc hc2]
      exact joinSep_extend acc (splitlinesGo (c2 :: r2) [])
        (splitlinesGo (c2 :: r2 ++ w) []) u hu hsu
        (fun hL hM =>
          splitlinesGo_ne_nil (c2 :: r2 ++ w) [] (List.cons_ne_nil _ _)
            (List.isEmpty_iff.mp hM))
  | case5 rest acc ih =>
    obtain ⟨u, hu, hsu⟩ := ih
    rw [show ('\n' :: rest) ++ w = '\n' :: (rest ++ w) from rfl,
      splitlinesGo_lf, splitlinesGo_lf]
    exact joinSep_extend acc (splitlinesGo rest []) (splitlinesGo (rest ++ w) [])
      u hu hsu
      (fun hL hM =>
        splitlinesGo_ne_nil (rest ++ w) []
          (fun hnil => hL (by rw [(List.append_eq_nil.mp hnil).1]; rfl))
          (List.isEmpty_iff.mp hM))
  | case6 c rest acc hg h1 h2 ih =>
    obtain ⟨u, hu, hsu⟩ := ih
    refine ⟨u, ?_, hsu⟩
    rw [show (c :: rest) ++ w = c :: (rest ++ w) from rfl,
      splitlinesGo_other c (rest ++ w) acc (fun hc => h1 hc) (fun hc => h2 hc),
      splitlinesGo_other c rest acc (fun hc => h1 hc) (fun hc => h2 hc)]
    exact hu

theorem noLF_joinSep_cr (ls : List (List Char)) (h : ∀ l ∈ ls, noNL l) :
    '\n' ∉ joinSep ['\r'] ls := by
  intro hm
  rcases mem_joinSep _ _ _ hm with h3 | ⟨l, hl, hcl⟩
  · simp at h3
  · exact (h l hl '\n' hcl).1 rfl

theorem pySplitlines_lf_cons (a : List Char) (ha : noNL a)
    (b : List Char) (ys : List (List Char)) :
    pySplitlines (joinSep ['\n'] (a :: b :: ys)) =
      a :: pySplitlines (joinSep ['\n'] (b :: ys)) := by
  have e1 : joinSep ['\n'] (a :: b :: ys) =
      a ++ ('\n' :: joinSep ['\n'] (b :: ys)) := by
    show a ++ ['\n'] ++ joinSep ['\n'] (b :: ys) = _
    simp
  show splitlinesGo (joinSep ['\n'] (a :: b :: ys)) [] = _
  rw [e1, splitlinesGo_chunk a _ [] ha, splitlinesGo_lf]
  simp [pySplitlines]

theorem pySplitlines_crlf_cons (a : List Char) (ha : noNL a)
    (b : List Char) (ys : List (List Char)) :
    pySplitlines (joinSep ['\r', '\n'] (a :: b :: ys)) =
      a :: pySplitlines (joinSep ['\r', '\n'] (b :: ys)) := by
  have e1 : joinSep ['\r', '\n'] (a :: b :: ys) =
      a ++ ('\r' :: '\n' :: joinSep ['\r', '\n'] (b :: ys)) := by
    show a ++ ['\r', '\n'] ++ joinSep ['\r', '\n'] (b :: ys) = _
    simp
  show splitlinesGo (joinSep ['\r', '\n'] (a :: b :: ys)) [] = _
  rw [e1, splitlinesGo_chunk a _ [] ha, splitlinesGo_crlf]
  simp [pySplitlines]

theorem pySplitlines_cr_cons (a : List Char) (ha : noNL a)
    (b : List Char) (ys : List (List Char)) (hrest : ∀ l ∈ b :: ys, noNL l) :
    pySplitlines (joinSep ['\r'] (a :: b :: ys)) =
      a :: pySplitlines (joinSep ['\r'] (b :: ys)) := by
  have e1 : joinSep ['\r'] (a :: b :: ys) =
      a ++ ('\r' :: joinSep ['\r'] (b :: ys)) := by
    show a ++ ['\r'] ++ joinSep ['\r'] (b :: ys) = _
    simp
  show splitlinesGo (joinSep ['\r'] (a :: b :: ys)) [] = _
  rw [e1, splitlinesGo_chunk a _ [] ha,
    splitlinesGo_cr_of_not_lf _ _ (noLF_joinSep_cr _ hrest)]
  simp [pySplitlines]

theorem pySplitlines_conventions (ls : List (List Char)) :
    (∀ l ∈ ls, noNL l) →
      pySplitlines (joinSep ['\n'] ls) = pySplitlines (joinSep ['\r'] ls) ∧
      pySplitlines (joinSep ['\r', '\n'] ls) = pySplitlines (joinSep ['\r'] ls) := by
  induction ls with
  | nil => exact fun _ => ⟨rfl, rfl⟩
  | cons a xs ih =>
    intro h
    cases xs with
    | nil => exact ⟨rfl, rfl⟩
    | cons b ys =>
      have ha := h a (List.mem_cons_self _ _)
      have hrest : ∀ l ∈ b :: ys, noNL l :=
        fun l hl => h l (List.mem_cons_of_mem _ hl)
      obtain ⟨ih1, ih2⟩ := ih hrest
      constructor
      · rw [pySplitlines_lf_cons a ha b ys, pySplitlines_cr_cons a ha b ys hrest,
          ih1]
      · rw [pySplitlines_crlf_cons a ha b ys, pySplitlines_cr_cons a ha b ys hrest,
          ih2]

theorem set_vtt_program_no_lf (s : List Char) : '\n' ∉ set_vtt_program s := by
  unfold set_vtt_program
  intro hmem
  rcases List.mem_append.mp hmem with h | h
  · have h2 := mem_rstrip _ _ h
    exact noLF_joinSep_cr (pySplitlines s)
      (splitlinesGo_noNL s [] (by intro c hc; cases hc)) h2
  · simp at h

/-- C10: `set_vtt_program` always stores text in a canonical newline form: the
stored bytes contain no `\n` (carriage return is the only line separator),
they consist of a right-stripped body (no trailing whitespace, hence no
trailing blank lines) followed by exactly one trailing `\r`,
`get_vtt_program` reads the stored bytes back with `\n` separators, and two
inputs that differ only in newline convention (`\n` or `\r\n` instead of
`\r` between the same terminator-free lines) or only in trailing whitespace
are stored as identical bytes. -/
theorem set_vtt_program_canonical (s w : List Char) (ls : List (List Char))
    (hls : ∀ l ∈ ls, noNL l) (hw : allSpace w) :
    '\n' ∉ set_vtt_program s ∧
    (∃ t, set_vtt_program s = t ++ ['\r'] ∧ rstrip t = t ∧
      get_vtt_program (set_vtt_program s) = crToLf t ++ ['\n']) ∧
    set_vtt_program (joinSep ['\n'] ls) = set_vtt_program (joinSep ['\r'] ls) ∧
    set_vtt_program (joinSep ['\r', '\n'] ls) =
      set_vtt_program (joinSep ['\r'] ls) ∧
    set_vtt_program (s ++ w) = set_vtt_program s := by
  obtain ⟨h1, h2⟩ := pySplitlines_conventions ls hls
  refine ⟨set_vtt_program_no_lf s,
    ⟨rstrip (joinSep ['\r'] (pySplitlines s)), rfl, rstrip_idem _, ?_⟩,
    ?_, ?_, ?_⟩
  · show crToLf (rstrip (joinSep ['\r'] (pySplitlines s)) ++ ['\r']) = _
    simp [crToLf]
  · show rstrip (joinSep ['\r'] (pySplitlines (joinSep ['\n'] ls))) ++ ['\r'] = _
    rw [h1]
    rfl
  · show rstrip (joinSep ['\r'] (pySplitlines (joinSep ['\r', '\n'] ls))) ++
      ['\r'] = _
    rw [h2]
    rfl
  · obtain ⟨u, hu, hsu⟩ := joinSep_splitlinesGo_append_space w hw s []
    show rstrip (joinSep ['\r'] (pySplitlines (s ++ w))) ++ ['\r'] = _
    unfold pySplitlines
    rw [hu, rstrip_append_space _ u hsu]
    rfl

/-- Witness for C10: the canonical-form theorem applied to the concrete
program `"a\nb"`, the trailing whitespace `" \n"` and the line list
`["ab", "c"]`. -/
theorem set_vtt_program_canonical_witness :
    (∀ l ∈ [['a', 'b'], ['c']], noNL l) ∧ allSpace [' ', '\n'] ∧
    ('\n' ∉ set_vtt_program ['a', '\n', 'b'] ∧
     (∃ t, set_vtt_program ['a', '\n', 'b'] = t ++ ['\r'] ∧ rstrip t = t ∧
       get_vtt_program (set_vtt_program ['a', '\n', 'b']) =
         crToLf t ++ ['\n']) ∧
     set_vtt_program (joinSep ['\n'] [['a', 'b'], ['c']]) =
       set_vtt_program (joinSep ['\r'] [['a', 'b'], ['c']]) ∧
     set_vtt_program (joinSep ['\r', '\n'] [['a', 'b'], ['c']]) =
       set_vtt_program (joinSep ['\r'] [['a', 'b'], ['c']]) ∧
     set_vtt_program (['a', '\n', 'b'] ++ [' ', '\n']) =
       set_vtt_program ['a', '\n', 'b']) :=
  ⟨by decide, by decide,
    set_vtt_program_canonical ['a', '\n', 'b'] [' ', '\n'] [['a', 'b'], ['c']]
      (by decide) (by decide)⟩

end VttLib
